import Mathlib

/-!
# Verification of the ultrack-td segmentation core

Shallow embedding of `src/union_find.h` and `src/ultrack.h`:
a 3-D flood-fill connected-component labeler, a sparse-index union-find
with path compression and union by rank, a hierarchical watershed merge
loop, and a segment materializer.

Modelling conventions:
* C++ `int` voxel indices are modelled as `Nat` (all indices handled by the
  program are non-negative linear voxel indices); configuration bounds
  `min_num_pixels`/`max_num_pixels` are modelled as `Int` since they may be
  negative.
* `float` boundary values are modelled as `ℚ`; `0.5f * (a + b)` becomes
  `(a + b) / 2`.
* `std::vector` becomes `List`; `push_back` is `· ++ [x]`; reading
  `v[i]` becomes `List.getD v i d` and writing `v[i] = x` becomes
  `List.set`.  Reads and writes in the source are always in bounds, so the
  out-of-bounds defaults are never exercised on the executions the theorems
  quantify over.
* The recursive `find_internal` (which terminates because the parent forest
  is acyclic) is modelled with explicit fuel `parent.length`; the
  acyclicity invariant proved below shows this fuel always suffices.
* `std::sort` guarantees only a sorted result; the relative order of
  equal-weight entries is implementation-defined.  `SortedIndexPost` below
  captures exactly the guaranteed postcondition; the executable stand-in
  `argsort` is one compliant refinement.
-/

/-! ## List access helpers -/

/-! ## Parent-pointer forests

`parentD p i` reads the parent of slot `i`, totalized so that every
out-of-bounds slot is its own parent.  `Root p i r` says `r` is the
representative of `i`: it is reachable from `i` along parent pointers and
is a fixpoint. -/
def parentD (p : List Nat) (i : Nat) : Nat := p.getD i i

def pIter (p : List Nat) (k i : Nat) : Nat := (fun j => parentD p j)^[k] i

def Root (p : List Nat) (i r : Nat) : Prop :=
  (∃ k, pIter p k i = r) ∧ parentD p r = r

/-- Pure root lookup with explicit fuel, mirroring the recursion of
`find_internal` without the compression writes. -/
def rootD (p : List Nat) : Nat → Nat → Nat
  | 0, i => i
  | fuel+1, i => if parentD p i = i then i else rootD p fuel (parentD p i)

/-- `find_internal` from `union_find.h`: returns the root and performs path
compression, rewriting the parent of every node on the search path to the
root.  The recursion consumes fuel; all call sites pass `p.length`, which
is shown to suffice on acyclic forests. -/
def findCompress (p : List Nat) : Nat → Nat → Nat × List Nat
  | 0, i => (i, p)
  | fuel+1, i =>
    if parentD p i = i then (i, p)
    else
      let res := findCompress p fuel (parentD p i)
      (res.1, res.2.set i res.1)

/-- Acyclicity: every slot reaches a representative. -/
def AcyclicP (p : List Nat) : Prop := ∀ i, ∃ r, Root p i r

/-! ## The union-find structure (`UnionFind` from `src/union_find.h`)

External indices are voxel linear indices (`Nat`); `id_map` maps an
external index to its dense internal slot, `reverse_map` is the inverse. -/
structure UnionFind where
  parent : List Nat
  rank : List Nat
  size : List Nat
  id_map : List (Nat × Nat)
  reverse_map : List Nat
  num_components : Nat
deriving DecidableEq

def lookupId : List (Nat × Nat) → Nat → Option Nat
  | [], _ => none
  | e :: rest, x => if e.1 = x then some e.2 else lookupId rest x

/-- `UnionFind()` default constructor. -/
def UnionFind.empty : UnionFind := ⟨[], [], [], [], [], 0⟩

/-- `UnionFind::add`. -/
def UnionFind.add (uf : UnionFind) (x : Nat) : UnionFind :=
  match lookupId uf.id_map x with
  | some _ => uf
  | none =>
    { parent := uf.parent ++ [uf.parent.length]
      rank := uf.rank ++ [0]
      size := uf.size ++ [1]
      id_map := (x, uf.parent.length) :: uf.id_map
      reverse_map := uf.reverse_map ++ [x]
      num_components := uf.num_components + 1 }

/-- `UnionFind(elements)` list constructor. -/
def UnionFind.ofList (elements : List Nat) : UnionFind :=
  elements.foldl UnionFind.add UnionFind.empty

/-- `UnionFind::contains`. -/
def UnionFind.contains (uf : UnionFind) (x : Nat) : Bool :=
  (lookupId uf.id_map x).isSome

/-- `UnionFind::count`. -/
def UnionFind.count (uf : UnionFind) : Nat := uf.num_components

/-- `UnionFind::find_internal`, with its path-compression side effect on
the parent array made explicit. -/
def UnionFind.find_internal (uf : UnionFind) (i : Nat) : Nat × UnionFind :=
  let res := findCompress uf.parent uf.parent.length i
  (res.1, { uf with parent := res.2 })

/-- `UnionFind::get_or_add_id`. -/
def UnionFind.get_or_add_id (uf : UnionFind) (x : Nat) : Nat × UnionFind :=
  match lookupId uf.id_map x with
  | some i => (i, uf)
  | none =>
    let uf1 := uf.add x
    ((lookupId uf1.id_map x).getD 0, uf1)

/-- `UnionFind::find`. -/
def UnionFind.find (uf : UnionFind) (x : Nat) : Nat × UnionFind :=
  let a := uf.get_or_add_id x
  a.2.find_internal a.1

/-- `UnionFind::unite`: returns whether a merge occurred, together with the
updated structure.  Mirrors the source exactly: the two `find_internal`
calls compress in sequence, then union by rank updates parent/size/rank
and decrements the component count. -/
def UnionFind.unite (uf : UnionFind) (x y : Nat) : Bool × UnionFind :=
  let ax := uf.get_or_add_id x
  let ay := ax.2.get_or_add_id y
  let fx := ay.2.find_internal ax.1
  let fy := fx.2.find_internal ay.1
  let uf1 := fy.2
  let root_x := fx.1
  let root_y := fy.1
  if root_x = root_y then (false, uf1)
  else if uf1.rank.getD root_x 0 < uf1.rank.getD root_y 0 then
    (true, { uf1 with
             parent := uf1.parent.set root_x root_y
             size := uf1.size.set root_y (uf1.size.getD root_y 0 + uf1.size.getD root_x 0)
             num_components := uf1.num_components - 1 })
  else if uf1.rank.getD root_y 0 < uf1.rank.getD root_x 0 then
    (true, { uf1 with
             parent := uf1.parent.set root_y root_x
             size := uf1.size.set root_x (uf1.size.getD root_x 0 + uf1.size.getD root_y 0)
             num_components := uf1.num_components - 1 })
  else
    (true, { uf1 with
             parent := uf1.parent.set root_y root_x
             size := uf1.size.set root_x (uf1.size.getD root_x 0 + uf1.size.getD root_y 0)
             rank := uf1.rank.set root_x (uf1.rank.getD root_x 0 + 1)
             num_components := uf1.num_components - 1 })

/-- `UnionFind::get_size`. -/
def UnionFind.get_size (uf : UnionFind) (x : Nat) : Nat × UnionFind :=
  match lookupId uf.id_map x with
  | none => (0, uf)
  | some i =>
    let f := uf.find_internal i
    (f.2.size.getD f.1 0, f.2)

/-- The loop body of `UnionFind::get_component`: for each internal slot in
`l` (ascending), compress and collect the external index when the slot's
representative matches `root`. -/
def collectLoop (root : Nat) (rm : List Nat) : List Nat → List Nat → List Nat × List Nat
  | [], p => ([], p)
  | i :: rest, p =>
    let f := findCompress p p.length i
    let recres := collectLoop root rm rest f.2
    if f.1 = root then (rm.getD i 0 :: recres.1, recres.2) else recres

/-- `UnionFind::get_component`. -/
def UnionFind.get_component (uf : UnionFind) (x : Nat) : List Nat × UnionFind :=
  match lookupId uf.id_map x with
  | none => ([], uf)
  | some i =>
    let f := uf.find_internal i
    let c := collectLoop f.1 f.2.reverse_map (List.range f.2.parent.length) f.2.parent
    (c.1, { f.2 with parent := c.2 })

/-- Semantic representative of an external index (`none` when absent). -/
def UnionFind.reprOf (uf : UnionFind) (x : Nat) : Option Nat :=
  (lookupId uf.id_map x).map (fun i => rootD uf.parent uf.parent.length i)

/-- The internal slots whose representative is `r`. -/
def rootsTo (p : List Nat) (r : Nat) : Finset Nat :=
  (Finset.range p.length).filter (fun i => rootD p p.length i = r)

/-- Consistency invariant of the union-find state: array lengths agree,
parents are in-bounds, the forest is acyclic, `id_map`/`reverse_map` are
inverse bijections built by `add`, `num_components` counts the roots, and
`size` is correct at every root. -/
def UnionFind.Inv (uf : UnionFind) : Prop :=
  uf.rank.length = uf.parent.length ∧
  uf.size.length = uf.parent.length ∧
  uf.reverse_map.length = uf.parent.length ∧
  (∀ i, i < uf.parent.length → parentD uf.parent i < uf.parent.length) ∧
  (∀ i, i < uf.parent.length →
    parentD uf.parent (rootD uf.parent uf.parent.length i) =
      rootD uf.parent uf.parent.length i) ∧
  uf.id_map = ((List.range uf.parent.length).map
    (fun i => (uf.reverse_map.getD i 0, i))).reverse ∧
  uf.reverse_map.Nodup ∧
  uf.num_components =
    ((Finset.range uf.parent.length).filter
      (fun i => parentD uf.parent i = i)).card ∧
  (∀ r, r < uf.parent.length → parentD uf.parent r = r →
    uf.size.getD r 0 = (rootsTo uf.parent r).card)

/-- Two parent arrays are similar when they have the same length, the same
representative for every slot, and the same fixpoints: the observable
outcome of path compression. -/
def SimP (p q : List Nat) : Prop :=
  q.length = p.length ∧
  (∀ j s, Root p j s ↔ Root q j s) ∧
  (∀ j, parentD q j = j ↔ parentD p j = j)

/-! ## Operation sequences over the union-find (for the bookkeeping
invariant stated over arbitrary interleavings). -/
inductive UFOp where
  | addOp (x : Nat)
  | findOp (x : Nat)
  | uniteOp (x y : Nat)
  | sizeOp (x : Nat)
  | compOp (x : Nat)

def UnionFind.applyOp (uf : UnionFind) : UFOp → UnionFind
  | .addOp x => uf.add x
  | .findOp x => (uf.find x).2
  | .uniteOp x y => (uf.unite x y).2
  | .sizeOp x => (uf.get_size x).2
  | .compOp x => (uf.get_component x).2

def UnionFind.applyOps (uf : UnionFind) (ops : List UFOp) : UnionFind :=
  ops.foldl UnionFind.applyOp uf

/-! ## Voxel index decoding (`idx = z·height·width + y·width + x`) -/
def decodeZ (height width idx : Nat) : Nat := idx / (height * width)

def decodeY (height width idx : Nat) : Nat := (idx % (height * width)) / width

def decodeX (width idx : Nat) : Nat := idx % width

/-! ## Segment (the materializer `Segment::from_visited_and_bbox` and the
bbox-recomputing `Segment::from_visited` from `src/ultrack.h`).  The
`nb::ndarray` mask is modelled as a flat row-major `List Bool` together
with its shape. -/
structure Segment where
  mask : List Bool
  mask_shape : Nat × Nat × Nat
  bbox : List Nat
  num_pixels : Nat
  z : Nat
  y : Nat
  x : Nat
deriving DecidableEq

def maskPos (mask_height mask_width rz ry rx : Nat) : Nat :=
  rz * mask_height * mask_width + ry * mask_width + rx

def Segment.from_visited_and_bbox (visited : List Nat)
    (min_z min_y min_x max_z max_y max_x depth height width : Nat) : Segment :=
  let mask_depth := max_z - min_z + 1
  let mask_height := max_y - min_y + 1
  let mask_width := max_x - min_x + 1
  let mask := visited.foldl (fun m idx =>
      m.set (maskPos mask_height mask_width
        (decodeZ height width idx - min_z)
        (decodeY height width idx - min_y)
        (decodeX width idx - min_x)) true)
    (List.replicate (mask_depth * mask_height * mask_width) false)
  { mask := mask
    mask_shape := (mask_depth, mask_height, mask_width)
    bbox := [min_z, min_y, min_x, max_z, max_y, max_x]
    num_pixels := visited.length
    z := min_z
    y := min_y
    x := min_x }

/-- The running bounding-box update (one voxel): the same min/max updates
the flood-fill loop performs at each pop and `from_visited` performs per
list entry. -/
def bboxFold (height width : Nat)
    (acc : Nat × Nat × Nat × Nat × Nat × Nat) (idx : Nat) :
    Nat × Nat × Nat × Nat × Nat × Nat :=
  (min acc.1 (decodeZ height width idx),
   min acc.2.1 (decodeY height width idx),
   min acc.2.2.1 (decodeX width idx),
   max acc.2.2.2.1 (decodeZ height width idx),
   max acc.2.2.2.2.1 (decodeY height width idx),
   max acc.2.2.2.2.2 (decodeX width idx))

def Segment.from_visited (visited : List Nat) (depth height width : Nat) : Segment :=
  let e := visited.foldl (bboxFold height width)
    (depth - 1, height - 1, width - 1, 0, 0, 0)
  Segment.from_visited_and_bbox visited e.1 e.2.1 e.2.2.1 e.2.2.2.1 e.2.2.2.2.1
    e.2.2.2.2.2 depth height width

/-! ## `argsort` and the `std::sort` contract

`std::sort(indices, cmp)` with `cmp l r = weights[l] < weights[r]`
guarantees only that the result is a permutation of the indices that is
non-decreasing in the weights; the relative order of equal weights is
implementation-defined.  `SortedIndexPost` is that guaranteed
postcondition; `StableSortedPost` is the stronger stable-sort order (ties
in index order).  The executable `argsort` below (an insertion sort) is
one `SortedIndexPost`-compliant refinement used to run the pipeline. -/
def SortedIndexPost (weights : List ℚ) (ord : List Nat) : Prop :=
  ord.Perm (List.range weights.length) ∧
  ord.Pairwise (fun i j => weights.getD i 0 ≤ weights.getD j 0)

def StableSortedPost (weights : List ℚ) (ord : List Nat) : Prop :=
  ord.Perm (List.range weights.length) ∧
  ord.Pairwise (fun i j => weights.getD i 0 < weights.getD j 0 ∨
    (weights.getD i 0 = weights.getD j 0 ∧ i < j))

def argsortInsert (weights : List ℚ) (i : Nat) : List Nat → List Nat
  | [] => [i]
  | j :: rest =>
    if weights.getD j 0 < weights.getD i 0 then j :: argsortInsert weights i rest
    else i :: j :: rest

def argsort (weights : List ℚ) : List Nat :=
  (List.range weights.length).foldr (argsortInsert weights) []

/-! ## `hierarchical_watershed` (src/ultrack.h): the edge-merge loop. -/
def hwLoop (edges : List Nat) (weights : List ℚ)
    (min_num_pixels max_num_pixels : Int) (min_frontier : ℚ)
    (depth height width : Nat) :
    List Nat → UnionFind → List Segment → Nat → List Segment × Nat
  | [], _, segments, num_segments => (segments, num_segments)
  | idx :: rest, uf, segments, num_segments =>
    let u := edges.getD (idx * 2) 0
    let v := edges.getD (idx * 2 + 1) 0
    let res := uf.unite u v
    if res.1 = true ∧ weights.getD idx 0 > min_frontier then
      let s := res.2.get_size u
      if min_num_pixels < (s.1 : Int) ∧ (s.1 : Int) < max_num_pixels then
        let c := s.2.get_component u
        hwLoop edges weights min_num_pixels max_num_pixels min_frontier depth height width
          rest c.2 (segments ++ [Segment.from_visited c.1 depth height width])
          (num_segments + 1)
      else
        hwLoop edges weights min_num_pixels max_num_pixels min_frontier depth height width
          rest s.2 segments num_segments
    else
      hwLoop edges weights min_num_pixels max_num_pixels min_frontier depth height width
        rest res.2 segments num_segments

def hierarchical_watershed (segments : List Segment) (visited : List Nat)
    (edges : List Nat) (weights : List ℚ)
    (min_num_pixels max_num_pixels : Int) (min_frontier : ℚ)
    (depth height width : Nat) : List Segment × Nat :=
  hwLoop edges weights min_num_pixels max_num_pixels min_frontier depth height width
    (argsort weights) (UnionFind.ofList visited) segments 0

/-! ## Flood-fill labeler (`compute_connected_components`, src/ultrack.h)

The work list is a stack: the C++ vector's back is this list's head, so a
`push_back` is a cons and `back()`/`pop_back()` read and drop the head.
The global visitation array `seen_data` is the finite set of indices
holding `true`. -/
def offsets : List (Int × Int × Int) :=
  [(0, 0, 1), (0, 1, 0), (1, 0, 0), (0, -1, 0), (0, 0, -1), (-1, 0, 0)]

structure FFState where
  queue : List Nat
  seen : Finset Nat
  visited : List Nat
  edges : List Nat
  weights : List ℚ
  bbox : Nat × Nat × Nat × Nat × Nat × Nat

/-- One neighbor probe of the popped voxel `idx`: bounds check, foreground
and not-yet-seen check; on success mark seen, push, and record the
discovery edge with its averaged boundary weight. -/
def neighborFold (fg : Nat → Bool) (ctr : Nat → ℚ) (depth height width idx : Nat)
    (acc : List Nat × Finset Nat × List Nat × List ℚ) (off : Int × Int × Int) :
    List Nat × Finset Nat × List Nat × List ℚ :=
  let nz : Int := (decodeZ height width idx : Int) + off.1
  let ny : Int := (decodeY height width idx : Int) + off.2.1
  let nx : Int := (decodeX width idx : Int) + off.2.2
  if 0 ≤ nz ∧ nz < (depth : Int) ∧ 0 ≤ ny ∧ ny < (height : Int) ∧
      0 ≤ nx ∧ nx < (width : Int) then
    let nidx := nz.toNat * (height * width) + ny.toNat * width + nx.toNat
    if fg nidx = true ∧ nidx ∉ acc.2.1 then
      (nidx :: acc.1, insert nidx acc.2.1,
       acc.2.2.1 ++ [idx, nidx], acc.2.2.2 ++ [(ctr idx + ctr nidx) / 2])
    else acc
  else acc

/-- The flood-fill work loop with explicit fuel; `ffLoop` supplies fuel
that always suffices (each iteration pops one entry and every push marks a
previously unseen in-grid voxel). -/
def ffLoopFuel (fg : Nat → Bool) (ctr : Nat → ℚ) (depth height width : Nat) :
    Nat → FFState → FFState
  | 0, st => st
  | fuel+1, st =>
    match st.queue with
    | [] => st
    | idx :: rest =>
      let r := offsets.foldl (neighborFold fg ctr depth height width idx)
        (rest, insert idx st.seen, st.edges, st.weights)
      ffLoopFuel fg ctr depth height width fuel
        ⟨r.1, r.2.1, st.visited ++ [idx], r.2.2.1, r.2.2.2,
         bboxFold height width st.bbox idx⟩

def ffLoop (fg : Nat → Bool) (ctr : Nat → ℚ) (depth height width : Nat)
    (st : FFState) : FFState :=
  ffLoopFuel fg ctr depth height width
    (st.queue.length + 2 * (depth * height * width)) st

/-- `compute_connected_components`: flood-fill from the seed, run the
hierarchical watershed over the discovered spanning tree, then emit the
whole-component fallback when the merge loop emitted nothing.  The third
output exposes the per-call visited list (a local of the C++ function)
for the partition statements. -/
def compute_connected_components (fg : Nat → Bool) (ctr : Nat → ℚ)
    (depth height width : Nat) (min_num_pixels max_num_pixels : Int)
    (min_frontier : ℚ) (seen : Finset Nat) (segments : List Segment)
    (cur_idx : Nat) : List Segment × Finset Nat × List Nat :=
  let st := ffLoop fg ctr depth height width
    ⟨[cur_idx], seen, [], [], [],
     (depth - 1, height - 1, width - 1, 0, 0, 0)⟩
  let res := hierarchical_watershed segments st.visited st.edges st.weights
    min_num_pixels max_num_pixels min_frontier depth height width
  if res.2 = 0 then
    (res.1 ++ [Segment.from_visited_and_bbox st.visited st.bbox.1 st.bbox.2.1
       st.bbox.2.2.1 st.bbox.2.2.2.1 st.bbox.2.2.2.2.1 st.bbox.2.2.2.2.2
       depth height width], st.seen, st.visited)
  else (res.1, st.seen, st.visited)

/-! ## Grid scanner (`compute_segmentation_hypotheses`, src/ultrack.h)

The triple z/y/x loop enumerates the linear indices 0.. depth·height·width
in ascending order; `visiteds` collects each flood-fill call's visited
list (ghost output used by the partition statements). -/
structure ScanState where
  segments : List Segment
  seen : Finset Nat
  visiteds : List (List Nat)

def scanStep (fg : Nat → Bool) (ctr : Nat → ℚ) (depth height width : Nat)
    (min_num_pixels max_num_pixels : Int) (min_frontier : ℚ)
    (st : ScanState) (idx : Nat) : ScanState :=
  if fg idx = true ∧ idx ∉ st.seen then
    let r := compute_connected_components fg ctr depth height width
      min_num_pixels max_num_pixels min_frontier st.seen st.segments idx
    ⟨r.1, r.2.1, st.visiteds ++ [r.2.2]⟩
  else st

def scanAll (fg : Nat → Bool) (ctr : Nat → ℚ) (depth height width : Nat)
    (min_num_pixels max_num_pixels : Int) (min_frontier : ℚ) : ScanState :=
  (List.range (depth * height * width)).foldl
    (scanStep fg ctr depth height width min_num_pixels max_num_pixels min_frontier)
    ⟨[], ∅, []⟩

def compute_segmentation_hypotheses (fg : Nat → Bool) (ctr : Nat → ℚ)
    (depth height width : Nat) (min_num_pixels max_num_pixels : Int)
    (min_frontier : ℚ) : List Segment :=
  (scanAll fg ctr depth height width min_num_pixels max_num_pixels min_frontier).segments

/-- Invariant of the flood-fill work-list state: no duplicates, the work
list and the visited list are disjoint, visited voxels are marked, and
the work list is either fully marked or the initial singleton seed. -/
def FFInv (st : FFState) : Prop :=
  st.queue.Nodup ∧ st.visited.Nodup ∧
  (∀ a ∈ st.queue, a ∉ st.visited) ∧
  (∀ a ∈ st.visited, a ∈ st.seen) ∧
  ((∀ a ∈ st.queue, a ∈ st.seen) ∨ (∃ s, st.queue = [s]))

/-- What one run of the flood-fill loop does, relating the start state to
the final state: the visited list grows by some `dl`, the visitation set
only grows, everything newly marked is accounted for by `dl` or still
pending, new visits outside the initial work list are fresh in-grid
foreground voxels, edge/weight/visited counts are conserved, and the
bounding box folds over exactly the popped voxels. -/
def FFPost (fg : Nat → Bool) (N height width : Nat) (st fin : FFState) : Prop :=
  ∃ dl : List Nat,
    fin.visited = st.visited ++ dl ∧
    st.seen ⊆ fin.seen ∧
    fin.seen ⊆ st.seen ∪ dl.toFinset ∪ fin.queue.toFinset ∧
    dl.toFinset ⊆ fin.seen ∧
    (∀ a ∈ dl, a ∈ st.seen → a ∈ st.queue) ∧
    (∀ a ∈ st.queue, a ∈ dl ∨ a ∈ fin.queue) ∧
    (∀ a ∈ dl, a ∈ st.queue ∨ (fg a = true ∧ a < N ∧ a ∉ st.seen)) ∧
    fin.weights.length + st.visited.length + st.queue.length =
      st.weights.length + fin.visited.length + fin.queue.length ∧
    fin.edges.length + 2 * st.weights.length =
      st.edges.length + 2 * fin.weights.length ∧
    fin.bbox = dl.foldl (bboxFold height width) st.bbox

def ffRun (fg : Nat → Bool) (ctr : Nat → ℚ) (depth height width : Nat)
    (seen : Finset Nat) (cur_idx : Nat) : FFState :=
  ffLoop fg ctr depth height width
    ⟨[cur_idx], seen, [], [], [], (depth - 1, height - 1, width - 1, 0, 0, 0)⟩

/-- The whole-component fallback segment built from a flood-fill state's
visited list and tracked bounding box. -/
def fallbackSeg (st : FFState) (depth height width : Nat) : Segment :=
  Segment.from_visited_and_bbox st.visited st.bbox.1 st.bbox.2.1 st.bbox.2.2.1
    st.bbox.2.2.2.1 st.bbox.2.2.2.2.1 st.bbox.2.2.2.2.2 depth height width

/-- The union of the per-call visited sets, in call order. -/
def seenOf (vs : List (List Nat)) : Finset Nat :=
  vs.foldr (fun l acc => l.toFinset ∪ acc) ∅

/-- Scan invariant after processing the first `k` linear indices: the
visitation set is exactly the union of the per-call visited lists, the
visited lists are pairwise disjoint, each is a non-empty duplicate-free
list of in-grid foreground voxels, and every already-scanned foreground
voxel is marked. -/
def ScanInv (fg : Nat → Bool) (N k : Nat) (st : ScanState) : Prop :=
  st.seen = seenOf st.visiteds ∧
  st.visiteds.Pairwise (fun l1 l2 => ∀ a ∈ l1, a ∉ l2) ∧
  (∀ l ∈ st.visiteds, l ≠ [] ∧ l.Nodup ∧ ∀ a ∈ l, fg a = true ∧ a < N) ∧
  (∀ i, i < k → fg i = true → i ∈ st.seen)

/-! ## Theorems -/

theorem getD_set_self (l : List Nat) (i v d : Nat) (h : i < l.length) :
    (l.set i v).getD i d = v := by
  induction l generalizing i with
  | nil => simp at h
  | cons a t ih =>
    cases i with
    | zero => simp [List.set, List.getD]
    | succ j =>
      simp only [List.set, List.length_cons] at h ⊢
      simpa [List.getD] using ih j (by omega)

theorem getD_set_ne (l : List Nat) (i v d j : Nat) (h : i ≠ j) :
    (l.set i v).getD j d = l.getD j d := by
  induction l generalizing i j with
  | nil => simp [List.set]
  | cons a t ih =>
    cases i with
    | zero =>
      cases j with
      | zero => exact absurd rfl h
      | succ j2 => simp [List.set, List.getD]
    | succ i2 =>
      cases j with
      | zero => simp [List.set, List.getD]
      | succ j2 =>
        simp only [List.set, List.getD_cons_succ]
        exact ih i2 j2 (by omega)

theorem getD_append_left (l l2 : List Nat) (i d : Nat) (h : i < l.length) :
    (l ++ l2).getD i d = l.getD i d := by
  induction l generalizing i with
  | nil => simp at h
  | cons a t ih =>
    cases i with
    | zero => simp [List.getD]
    | succ j =>
      simp only [List.length_cons] at h
      simpa [List.getD] using ih j (by omega)

theorem getD_append_right_self (l : List Nat) (x d : Nat) :
    (l ++ [x]).getD l.length d = x := by
  induction l with
  | nil => simp [List.getD]
  | cons a t ih => simpa [List.getD] using ih

theorem getD_oob (l : List Nat) (i d : Nat) (h : l.length ≤ i) :
    l.getD i d = d := by
  induction l generalizing i with
  | nil => simp [List.getD]
  | cons a t ih =>
    cases i with
    | zero => simp at h
    | succ j =>
      simp only [List.length_cons] at h
      simpa [List.getD] using ih j (by omega)

theorem map_getD_range (l : List Nat) :
    (List.range l.length).map (fun i => l.getD i 0) = l := by
  apply List.ext_getElem
  · simp
  · intro i h1 h2
    simp only [List.getElem_map, List.getElem_range]
    simp [List.getD_eq_getElem?_getD, List.getElem?_eq_getElem h2]

theorem parentD_oob (p : List Nat) (i : Nat) (h : p.length ≤ i) : parentD p i = i :=
  getD_oob p i i h

theorem parentD_lt_of_ne (p : List Nat) (i : Nat) (h : parentD p i ≠ i) :
    i < p.length := by
  by_contra hc
  exact h (parentD_oob p i (by omega))

theorem pIter_succ (p : List Nat) (k i : Nat) :
    pIter p (k+1) i = pIter p k (parentD p i) := by
  simp [pIter, Function.iterate_succ_apply]

theorem pIter_add (p : List Nat) (a b i : Nat) :
    pIter p (a + b) i = pIter p a (pIter p b i) := by
  simp [pIter, Function.iterate_add_apply]

theorem pIter_fix (p : List Nat) (r : Nat) (h : parentD p r = r) (k : Nat) :
    pIter p k r = r := by
  induction k with
  | zero => rfl
  | succ n ih => rw [pIter_succ, h, ih]

theorem Root_unique (p : List Nat) (i r s : Nat) (h1 : Root p i r) (h2 : Root p i s) :
    r = s := by
  obtain ⟨⟨a, ha⟩, hfr⟩ := h1
  obtain ⟨⟨b, hb⟩, hfs⟩ := h2
  rcases Nat.le_total a b with hab | hab
  · obtain ⟨c, hc⟩ := Nat.le.dest hab
    have hsplit : pIter p b i = pIter p c (pIter p a i) := by
      rw [← pIter_add]; congr 1; omega
    rw [ha, pIter_fix p r hfr, hb] at hsplit
    exact hsplit.symm
  · obtain ⟨c, hc⟩ := Nat.le.dest hab
    have hsplit : pIter p a i = pIter p c (pIter p b i) := by
      rw [← pIter_add]; congr 1; omega
    rw [hb, pIter_fix p s hfs, ha] at hsplit
    exact hsplit

theorem Root_self (p : List Nat) (i : Nat) (h : parentD p i = i) : Root p i i :=
  ⟨⟨0, rfl⟩, h⟩

theorem Root_step (p : List Nat) (i r : Nat) (hne : parentD p i ≠ i)
    (h : Root p i r) : Root p (parentD p i) r := by
  obtain ⟨⟨k, hk⟩, hf⟩ := h
  cases k with
  | zero =>
    have hir : i = r := hk
    exact absurd (hir ▸ hf) hne
  | succ m =>
    exact ⟨⟨m, by rw [← pIter_succ]; exact hk⟩, hf⟩

theorem Root_step_back (p : List Nat) (i r : Nat)
    (h : Root p (parentD p i) r) : Root p i r := by
  obtain ⟨⟨k, hk⟩, hf⟩ := h
  exact ⟨⟨k + 1, by rw [pIter_succ]; exact hk⟩, hf⟩

theorem rootD_iterate (p : List Nat) (fuel i : Nat) :
    ∃ k, k ≤ fuel ∧ pIter p k i = rootD p fuel i := by
  induction fuel generalizing i with
  | zero => exact ⟨0, le_refl 0, rfl⟩
  | succ n ih =>
    by_cases h : parentD p i = i
    · exact ⟨0, Nat.zero_le _, by simp [rootD, h, pIter]⟩
    · obtain ⟨k, hk, he⟩ := ih (parentD p i)
      exact ⟨k + 1, by omega, by rw [pIter_succ]; simpa [rootD, h] using he⟩

theorem rootD_of_path (p : List Nat) (r : Nat) (hfix : parentD p r = r) :
    ∀ fuel k i, k ≤ fuel → pIter p k i = r → rootD p fuel i = r := by
  intro fuel
  induction fuel with
  | zero =>
    intro k i hk he
    interval_cases k
    exact he
  | succ n ih =>
    intro k i hk he
    by_cases h : parentD p i = i
    · have hpk : pIter p k i = i := pIter_fix p i h k
      rw [hpk] at he
      show (if parentD p i = i then i else rootD p n (parentD p i)) = r
      rw [if_pos h]
      exact he
    · cases k with
      | zero =>
        have hir : i = r := he
        rw [← hir] at hfix
        exact absurd hfix h
      | succ m =>
        rw [pIter_succ] at he
        simp only [rootD, h, if_false]
        exact ih m (parentD p i) (by omega) he

/-- Any slot that reaches a fixpoint reaches it within `p.length` steps:
the iterates before the fixpoint are pairwise distinct in-bounds slots. -/
theorem reach_short (p : List Nat) (i r : Nat)
    (h : ∃ k, pIter p k i = r) (hfix : parentD p r = r) :
    ∃ k, k ≤ p.length ∧ pIter p k i = r := by
  classical
  let k0 := Nat.find h
  have hk0 : pIter p k0 i = r := Nat.find_spec h
  have hmin : ∀ m, m < k0 → pIter p m i ≠ r := fun m hm => Nat.find_min h hm
  refine ⟨k0, ?_, hk0⟩
  by_contra hlong
  push_neg at hlong
  have hnofix : ∀ a, a < k0 → parentD p (pIter p a i) ≠ pIter p a i := by
    intro a ha hf
    have hstab : pIter p k0 i = pIter p a i := by
      obtain ⟨c, hc⟩ := Nat.le.dest (Nat.le_of_lt ha)
      have h3 := pIter_add p c a i
      rw [show c + a = k0 by omega] at h3
      rw [h3, pIter_fix p _ hf c]
    exact hmin a ha (by rw [← hstab, hk0])
  have hbound : ∀ a, a < k0 → pIter p a i < p.length := by
    intro a ha
    exact parentD_lt_of_ne p _ (hnofix a ha)
  have hinj : Function.Injective (fun a : Fin k0 => (⟨pIter p a.1 i, hbound a.1 a.2⟩ : Fin p.length)) := by
    intro a b hab
    simp only [Fin.mk.injEq] at hab
    by_contra hne
    rcases Nat.lt_or_ge a.1 b.1 with hlt | hge
    · obtain ⟨c, hc⟩ := Nat.le.dest (Nat.le_of_lt hlt)
      have hper : ∀ t, pIter p (a.1 + t) i = pIter p (b.1 + t) i := by
        intro t
        have h1 : pIter p (t + a.1) i = pIter p t (pIter p a.1 i) := pIter_add p t a.1 i
        have h2 : pIter p (t + b.1) i = pIter p t (pIter p b.1 i) := pIter_add p t b.1 i
        rw [hab] at h1
        rw [Nat.add_comm a.1 t, Nat.add_comm b.1 t, h1, h2]
      have hcd : a.1 + (k0 - b.1) < k0 := by omega
      have : pIter p (a.1 + (k0 - b.1)) i = pIter p k0 i := by
        rw [hper (k0 - b.1)]
        congr 1
        omega
      exact hmin _ hcd (by rw [this, hk0])
    · rcases Nat.lt_or_ge b.1 a.1 with hlt2 | hge2
      · obtain ⟨c, hc⟩ := Nat.le.dest (Nat.le_of_lt hlt2)
        have hper : ∀ t, pIter p (b.1 + t) i = pIter p (a.1 + t) i := by
          intro t
          have h1 : pIter p (t + a.1) i = pIter p t (pIter p a.1 i) := pIter_add p t a.1 i
          have h2 : pIter p (t + b.1) i = pIter p t (pIter p b.1 i) := pIter_add p t b.1 i
          rw [hab] at h1
          rw [Nat.add_comm b.1 t, Nat.add_comm a.1 t, h1, h2]
        have hcd : b.1 + (k0 - a.1) < k0 := by omega
        have : pIter p (b.1 + (k0 - a.1)) i = pIter p k0 i := by
          rw [hper (k0 - a.1)]
          congr 1
          omega
        exact hmin _ hcd (by rw [this, hk0])
      · exact hne (Fin.ext (by omega))
  have := Fintype.card_le_of_injective _ hinj
  simp only [Fintype.card_fin] at this
  omega

theorem rootD_eq_of_Root (p : List Nat) (i r : Nat) (h : Root p i r) :
    rootD p p.length i = r := by
  obtain ⟨hreach, hfix⟩ := h
  obtain ⟨k, hk, he⟩ := reach_short p i r hreach hfix
  exact rootD_of_path p r hfix p.length k i hk he

theorem Root_rootD (p : List Nat) (hA : AcyclicP p) (i : Nat) :
    Root p i (rootD p p.length i) := by
  obtain ⟨r, hr⟩ := hA i
  rw [rootD_eq_of_Root p i r hr]
  exact hr

theorem pIter_lt (p : List Nat) (hb : ∀ j, j < p.length → parentD p j < p.length)
    (i : Nat) (hi : i < p.length) (k : Nat) : pIter p k i < p.length := by
  induction k generalizing i with
  | zero => exact hi
  | succ m ih =>
    rw [pIter_succ]
    exact ih (parentD p i) (hb i hi)

theorem root_lt (p : List Nat) (hb : ∀ j, j < p.length → parentD p j < p.length)
    (i r : Nat) (hi : i < p.length) (h : Root p i r) : r < p.length := by
  obtain ⟨⟨k, hk⟩, _⟩ := h
  rw [← hk]
  exact pIter_lt p hb i hi k

/-- Rewriting the parent of a non-representative node `i` to its own
representative `r` preserves every node's representative. -/
theorem Root_set_preserve (p : List Nat) (i r : Nat)
    (hne : parentD p i ≠ i) (hri : Root p i r) :
    ∀ k j s, pIter p k j = s → parentD p s = s → Root (p.set i r) j s := by
  intro k
  induction k using Nat.strong_induction_on with
  | _ k ih =>
    intro j s hk hfs
    have hilt : i < p.length := parentD_lt_of_ne p i hne
    have hrfix : parentD p r = r := hri.2
    have hrni : r ≠ i := fun hh => hne (hh ▸ hrfix)
    by_cases hj : parentD p j = j
    · have hjs : j = s := by rw [← pIter_fix p j hj k]; exact hk
      subst hjs
      have hsni : j ≠ i := fun hh => hne (hh ▸ hj)
      refine Root_self _ j ?_
      show (p.set i r).getD j j = j
      rw [getD_set_ne p i r j j (fun hh => hsni hh.symm)]
      exact hj
    · cases k with
      | zero =>
        have hjs : j = s := hk
        rw [← hjs] at hfs
        exact absurd hfs hj
      | succ m =>
        by_cases hji : j = i
        · have hroots : Root p j r := by rw [hji]; exact hri
          have hsr : s = r := Root_unique p j s r ⟨⟨m+1, hk⟩, hfs⟩ hroots
          have hp1 : parentD (p.set i r) j = r := by
            show (p.set i r).getD j j = r
            rw [hji]
            exact getD_set_self p i r i hilt
          have hp2 : parentD (p.set i r) r = r := by
            show (p.set i r).getD r r = r
            rw [getD_set_ne p i r r r (fun hh => hrni hh.symm)]
            exact hrfix
          rw [hsr]
          exact ⟨⟨1, by rw [pIter_succ, hp1]; exact pIter_fix _ r hp2 0⟩, hp2⟩
        · have hpj : parentD (p.set i r) j = parentD p j := by
            show (p.set i r).getD j j = p.getD j j
            exact getD_set_ne p i r j j (fun hh => hji hh.symm)
          have htail : pIter p m (parentD p j) = s := by
            rw [← pIter_succ]; exact hk
          have hrec := ih m (by omega) (parentD p j) s htail hfs
          apply Root_step_back
          rw [hpj]
          exact hrec

theorem fix_set_iff (p : List Nat) (i r : Nat)
    (hne : parentD p i ≠ i) (hri : Root p i r) (j : Nat) :
    parentD (p.set i r) j = j ↔ parentD p j = j := by
  have hilt : i < p.length := parentD_lt_of_ne p i hne
  have hrfix : parentD p r = r := hri.2
  have hrni : r ≠ i := fun hh => hne (hh ▸ hrfix)
  by_cases hji : j = i
  · subst hji
    have hset2 : parentD (p.set j r) j = r := by
      show (p.set j r).getD j j = r
      exact getD_set_self p j r j hilt
    rw [hset2]
    constructor
    · intro hh; exact absurd hh hrni
    · intro hh; exact absurd hh hne
  · have : parentD (p.set i r) j = parentD p j := by
      show (p.set i r).getD j j = p.getD j j
      exact getD_set_ne p i r j j (fun hh => hji hh.symm)
    rw [this]

/-- Full specification of `find_internal`: given enough fuel it returns the
representative, and the compressed parent array has the same length, the
same representatives, the same set of fixpoints, is still acyclic, and
still has in-bounds parents. -/
theorem findCompress_spec (p : List Nat) (hA : AcyclicP p)
    (hb : ∀ j, j < p.length → parentD p j < p.length) :
    ∀ fuel i r, Root p i r → (∃ k, k ≤ fuel ∧ pIter p k i = r) →
      (findCompress p fuel i).1 = r ∧
      (findCompress p fuel i).2.length = p.length ∧
      (∀ j s, Root p j s ↔ Root (findCompress p fuel i).2 j s) ∧
      (∀ j, parentD (findCompress p fuel i).2 j = j ↔ parentD p j = j) ∧
      AcyclicP (findCompress p fuel i).2 ∧
      (∀ j, j < p.length → parentD (findCompress p fuel i).2 j < p.length) := by
  intro fuel
  induction fuel with
  | zero =>
    intro i r hroot hpath
    obtain ⟨k, hk, he⟩ := hpath
    interval_cases k
    have hir : i = r := he
    subst hir
    exact ⟨rfl, rfl, fun j s => Iff.rfl, fun j => Iff.rfl, hA, hb⟩
  | succ n ih =>
    intro i r hroot hpath
    by_cases hfi : parentD p i = i
    · have hir : i = r := Root_unique p i i r (Root_self p i hfi) hroot
      have hunfold : findCompress p (n+1) i = (i, p) := by
        show (if parentD p i = i then (i, p) else _) = (i, p)
        rw [if_pos hfi]
      rw [hunfold]
      exact ⟨hir, rfl, fun j s => Iff.rfl, fun j => Iff.rfl, hA, hb⟩
    · obtain ⟨k, hk, he⟩ := hpath
      cases k with
      | zero =>
        have hir : i = r := he
        rw [← hir] at hroot
        exact absurd hroot.2 hfi
      | succ m =>
        have htail : pIter p m (parentD p i) = r := by rw [← pIter_succ]; exact he
        have hroot2 : Root p (parentD p i) r := Root_step p i r hfi hroot
        obtain ⟨hfst, hlen, hiff, hfixiff, hAq, hbq⟩ :=
          ih (parentD p i) r hroot2 ⟨m, by omega, htail⟩
        have hunfold : findCompress p (n+1) i =
            ((findCompress p n (parentD p i)).1,
             (findCompress p n (parentD p i)).2.set i (findCompress p n (parentD p i)).1) := by
          show (if parentD p i = i then (i, p) else _) = _
          rw [if_neg hfi]
        set q := (findCompress p n (parentD p i)).2 with hq
        rw [hunfold, hfst]
        have hqi : parentD q i ≠ i := fun hh => hfi ((hfixiff i).mp hh)
        have hqroot : Root q i r := (hiff i r).mp hroot
        have hilt : i < p.length := parentD_lt_of_ne p i hfi
        have hset : ∀ j s, Root q j s → Root (q.set i r) j s := by
          intro j s hjs
          obtain ⟨⟨kk, hkk⟩, hfs⟩ := hjs
          exact Root_set_preserve q i r hqi hqroot kk j s hkk hfs
        refine ⟨rfl, ?_, ?_, ?_, ?_, ?_⟩
        · rw [List.length_set]; exact hlen
        · intro j s
          constructor
          · intro hjs
            exact hset j s ((hiff j s).mp hjs)
          · intro hjs
            obtain ⟨s0, hs0⟩ := hAq j
            have := hset j s0 hs0
            have hss : s = s0 := Root_unique _ j s s0 hjs this
            exact (hiff j s).mpr (hss ▸ hs0)
        · intro j
          rw [fix_set_iff q i r hqi hqroot j]
          exact hfixiff j
        · intro j
          obtain ⟨s0, hs0⟩ := hAq j
          exact ⟨s0, hset j s0 hs0⟩
        · intro j hj
          by_cases hji : j = i
          · subst hji
            have : parentD (q.set j r) j = r := by
              show (q.set j r).getD j j = r
              exact getD_set_self q j r j (by rw [hlen]; exact hilt)
            rw [this]
            exact root_lt p hb j r hilt hroot
          · have : parentD (q.set i r) j = parentD q j := by
              show (q.set i r).getD j j = q.getD j j
              exact getD_set_ne q i r j j (fun hh => hji hh.symm)
            rw [this]
            exact hbq j hj

/-- `find_internal` called with fuel `p.length` on an acyclic bounded
forest: packaged form of `findCompress_spec`. -/
theorem findCompress_at (p : List Nat) (hA : AcyclicP p)
    (hb : ∀ j, j < p.length → parentD p j < p.length) (i : Nat) :
    (findCompress p p.length i).1 = rootD p p.length i ∧
      (findCompress p p.length i).2.length = p.length ∧
      (∀ j s, Root p j s ↔ Root (findCompress p p.length i).2 j s) ∧
      (∀ j, parentD (findCompress p p.length i).2 j = j ↔ parentD p j = j) ∧
      AcyclicP (findCompress p p.length i).2 ∧
      (∀ j, j < p.length → parentD (findCompress p p.length i).2 j < p.length) := by
  obtain ⟨r, hr⟩ := hA i
  obtain ⟨k, hk, he⟩ := reach_short p i r hr.1 hr.2
  have := findCompress_spec p hA hb p.length i r hr ⟨k, hk, he⟩
  rw [rootD_eq_of_Root p i r hr]
  exact this

theorem parentD_snoc (p : List Nat) (j : Nat) :
    parentD (p ++ [p.length]) j = parentD p j := by
  rcases Nat.lt_trichotomy j p.length with h | h | h
  · show (p ++ [p.length]).getD j j = p.getD j j
    exact getD_append_left p [p.length] j j h
  · subst h
    show (p ++ [p.length]).getD p.length p.length = p.getD p.length p.length
    rw [getD_append_right_self, getD_oob p p.length p.length (le_refl _)]
  · show (p ++ [p.length]).getD j j = p.getD j j
    rw [getD_oob p j j (by omega), getD_oob (p ++ [p.length]) j j (by simp; omega)]

theorem pIter_congr (p q : List Nat) (h : ∀ j, parentD p j = parentD q j)
    (k i : Nat) : pIter p k i = pIter q k i := by
  induction k generalizing i with
  | zero => rfl
  | succ m ih => rw [pIter_succ, pIter_succ, h i, ih]

theorem Root_congr (p q : List Nat) (h : ∀ j, parentD p j = parentD q j)
    (i r : Nat) (hr : Root p i r) : Root q i r := by
  obtain ⟨⟨k, hk⟩, hf⟩ := hr
  exact ⟨⟨k, by rw [← pIter_congr p q h k i]; exact hk⟩, by rw [← h r]; exact hf⟩

theorem rootD_fuel_eq (p : List Nat) (hA : AcyclicP p) (i fuel : Nat)
    (hf : p.length ≤ fuel) : rootD p fuel i = rootD p p.length i := by
  obtain ⟨r, hr⟩ := hA i
  obtain ⟨k, hk, he⟩ := reach_short p i r hr.1 hr.2
  rw [rootD_eq_of_Root p i r hr]
  exact rootD_of_path p r hr.2 fuel k i (by omega) he

theorem Inv_acyclic (uf : UnionFind) (h : uf.Inv) : AcyclicP uf.parent := by
  intro i
  by_cases hi : i < uf.parent.length
  · obtain ⟨k, hk, he⟩ := rootD_iterate uf.parent uf.parent.length i
    exact ⟨rootD uf.parent uf.parent.length i, ⟨k, he⟩, h.2.2.2.2.1 i hi⟩
  · exact ⟨i, Root_self _ i (parentD_oob _ i (by omega))⟩

theorem rootD_congr (p q : List Nat) (h : ∀ j, parentD p j = parentD q j) :
    ∀ fuel i, rootD p fuel i = rootD q fuel i := by
  intro fuel
  induction fuel with
  | zero => intro i; rfl
  | succ n ih =>
    intro i
    show (if parentD p i = i then i else rootD p n (parentD p i)) =
      (if parentD q i = i then i else rootD q n (parentD q i))
    rw [h i]
    by_cases hq : parentD q i = i
    · rw [if_pos hq, if_pos hq]
    · rw [if_neg hq, if_neg hq, ih]

theorem fix_rootD_of_acyclic (p : List Nat) (hA : AcyclicP p) (i : Nat) :
    parentD p (rootD p p.length i) = rootD p p.length i :=
  (Root_rootD p hA i).2

theorem roots_eq_of_iff (p q : List Nat) (hA : AcyclicP p)
    (hiff : ∀ j s, Root p j s ↔ Root q j s) (j : Nat) :
    rootD q q.length j = rootD p p.length j :=
  rootD_eq_of_Root q j (rootD p p.length j) ((hiff j _).mp (Root_rootD p hA j))

theorem lookupId_mem (m : List (Nat × Nat)) (y i : Nat)
    (h : lookupId m y = some i) : (y, i) ∈ m := by
  induction m with
  | nil => simp [lookupId] at h
  | cons e rest ih =>
    by_cases he : e.1 = y
    · simp only [lookupId, if_pos he] at h
      have : e = (y, i) := by
        cases e
        simp only at he
        simp only [Option.some.injEq] at h
        simp [he, h]
      rw [this] at *
      exact List.mem_cons_self _ _
    · simp only [lookupId, if_neg he] at h
      exact List.mem_cons_of_mem _ (ih h)

theorem lookupId_none_keys (m : List (Nat × Nat)) (y : Nat)
    (h : lookupId m y = none) : ∀ e ∈ m, e.1 ≠ y := by
  induction m with
  | nil => simp
  | cons e rest ih =>
    by_cases he : e.1 = y
    · simp [lookupId, if_pos he] at h
    · simp only [lookupId, if_neg he] at h
      intro e2 he2
      rcases List.mem_cons.mp he2 with h1 | h1
      · rw [h1]; exact he
      · exact ih h e2 h1

/-- Under the invariant, a successful lookup gives an in-bounds slot whose
reverse-map entry is the key. -/
theorem lookup_lt (uf : UnionFind) (h : uf.Inv) (y i : Nat)
    (hl : lookupId uf.id_map y = some i) :
    i < uf.parent.length ∧ uf.reverse_map.getD i 0 = y := by
  have hmem := lookupId_mem _ _ _ hl
  rw [h.2.2.2.2.2.1] at hmem
  rw [List.mem_reverse, List.mem_map] at hmem
  obtain ⟨a, ha, he⟩ := hmem
  rw [List.mem_range] at ha
  have h1 : uf.reverse_map.getD a 0 = y := congrArg Prod.fst he
  have h2 : a = i := congrArg Prod.snd he
  rw [← h2]
  exact ⟨ha, h1⟩

/-- Under the invariant, absent keys are exactly those outside
`reverse_map`. -/
theorem lookup_none_iff (uf : UnionFind) (h : uf.Inv) (y : Nat) :
    lookupId uf.id_map y = none ↔ y ∉ uf.reverse_map := by
  constructor
  · intro hn hy
    obtain ⟨i, hi, he⟩ := List.mem_iff_getElem.mp hy
    have hrm : uf.reverse_map.getD i 0 = y := by
      rw [List.getD_eq_getElem uf.reverse_map 0 hi]
      exact he
    have : ((y, i) : Nat × Nat) ∈ uf.id_map := by
      rw [h.2.2.2.2.2.1, List.mem_reverse, List.mem_map]
      exact ⟨i, List.mem_range.mpr (by rw [← h.2.2.1]; exact hi), by rw [hrm]⟩
    exact (lookupId_none_keys _ _ hn (y, i) this) rfl
  · intro hy
    cases hl : lookupId uf.id_map y with
    | none => rfl
    | some i =>
      obtain ⟨hi, hrm⟩ := lookup_lt uf h y i hl
      exfalso
      apply hy
      rw [← hrm]
      have : i < uf.reverse_map.length := by rw [h.2.2.1]; exact hi
      rw [List.getD_eq_getElem uf.reverse_map 0 this]
      exact List.getElem_mem this

theorem Inv_empty : UnionFind.empty.Inv := by
  refine ⟨rfl, rfl, rfl, ?_, ?_, rfl, List.nodup_nil, rfl, ?_⟩
  · intro i hi; simp [UnionFind.empty] at hi
  · intro i hi; simp [UnionFind.empty] at hi
  · intro r hr; simp [UnionFind.empty] at hr

theorem add_of_some (uf : UnionFind) (x i : Nat)
    (hl : lookupId uf.id_map x = some i) : uf.add x = uf := by
  simp only [UnionFind.add, hl]

theorem add_of_none (uf : UnionFind) (x : Nat)
    (hl : lookupId uf.id_map x = none) : uf.add x =
    { parent := uf.parent ++ [uf.parent.length]
      rank := uf.rank ++ [0]
      size := uf.size ++ [1]
      id_map := (x, uf.parent.length) :: uf.id_map
      reverse_map := uf.reverse_map ++ [x]
      num_components := uf.num_components + 1 } := by
  simp only [UnionFind.add, hl]

theorem Inv_add (uf : UnionFind) (h : uf.Inv) (x : Nat) : (uf.add x).Inv := by
  cases hl : lookupId uf.id_map x with
  | some i => rw [add_of_some uf x i hl]; exact h
  | none =>
    rw [add_of_none uf x hl]
    obtain ⟨hrk, hsz, hrm, hbnd, hfix, hmap, hnod, hcnt, hsizes⟩ := h
    have h : uf.Inv := ⟨hrk, hsz, hrm, hbnd, hfix, hmap, hnod, hcnt, hsizes⟩
    set n := uf.parent.length with hn
    set p := uf.parent with hp
    set p2 := p ++ [n] with hp2
    have hA : AcyclicP p := Inv_acyclic uf h
    have hpar : ∀ j, parentD p2 j = parentD p j := parentD_snoc p
    have hlen2 : p2.length = n + 1 := by simp [hp2]
    have hA2 : AcyclicP p2 := by
      intro j
      obtain ⟨r, hr⟩ := hA j
      exact ⟨r, Root_congr p p2 (fun j2 => (hpar j2).symm) j r hr⟩
    have hroot2 : ∀ j, rootD p2 p2.length j = rootD p p.length j := by
      intro j
      rw [hlen2, rootD_congr p2 p (fun j2 => hpar j2) (n+1) j]
      exact rootD_fuel_eq p hA j (n+1) (by omega)
    have hrootlt : ∀ j, j < n → rootD p p.length j < n := by
      intro j hj
      exact root_lt p hbnd j _ hj (Root_rootD p hA j)
    have hrootn : rootD p2 p2.length n = n := by
      rw [hroot2 n]
      exact rootD_eq_of_Root p n n (Root_self p n (parentD_oob p n (le_refl n)))
    refine ⟨?_, ?_, ?_, ?_, ?_, ?_, ?_, ?_, ?_⟩
    · show (uf.rank ++ [0]).length = p2.length
      simp only [List.length_append, List.length_singleton]
      omega
    · show (uf.size ++ [1]).length = p2.length
      simp only [List.length_append, List.length_singleton]
      omega
    · show (uf.reverse_map ++ [x]).length = p2.length
      simp only [List.length_append, List.length_singleton]
      omega
    · intro j hj
      show parentD p2 j < p2.length
      rw [hpar j, hlen2]
      rcases Nat.lt_or_ge j n with hjn | hjn
      · exact lt_trans (hbnd j hjn) (by omega)
      · rw [parentD_oob p j (by omega)]
        rw [hlen2] at hj
        omega
    · intro i _
      exact fix_rootD_of_acyclic p2 hA2 i
    · show (x, n) :: uf.id_map = ((List.range p2.length).map
        (fun i => ((uf.reverse_map ++ [x]).getD i 0, i))).reverse
      rw [hmap, hlen2, List.range_succ, List.map_append, List.reverse_append]
      simp only [List.map_cons, List.map_nil, List.reverse_cons, List.reverse_nil,
        List.nil_append, List.singleton_append]
      have hfn : (uf.reverse_map ++ [x]).getD n 0 = x := by
        rw [← hrm]
        exact getD_append_right_self uf.reverse_map x 0
      rw [hfn]
      congr 1
      congr 1
      apply List.map_congr_left
      intro a ha
      rw [List.mem_range] at ha
      have : (uf.reverse_map ++ [x]).getD a 0 = uf.reverse_map.getD a 0 :=
        getD_append_left uf.reverse_map [x] a 0 (by rw [hrm]; exact ha)
      rw [this]
    · show (uf.reverse_map ++ [x]).Nodup
      have hx : x ∉ uf.reverse_map := (lookup_none_iff uf h x).mp hl
      simp [List.nodup_append, hnod, hx]
    · show uf.num_components + 1 =
        ((Finset.range p2.length).filter (fun i => parentD p2 i = i)).card
      rw [hlen2, Finset.range_succ, Finset.filter_insert]
      have hfixn : parentD p2 n = n := by
        rw [hpar n]; exact parentD_oob p n (le_refl n)
      rw [if_pos hfixn]
      have hnm : n ∉ (Finset.range n).filter (fun i => parentD p2 i = i) := by
        intro hmem
        have := Finset.mem_of_mem_filter n hmem
        simp at this
      rw [Finset.card_insert_of_not_mem hnm]
      have : (Finset.range n).filter (fun i => parentD p2 i = i) =
          (Finset.range n).filter (fun i => parentD p i = i) :=
        Finset.filter_congr (fun i _ => by rw [hpar i])
      rw [this, ← hcnt]
    · intro r hr hfr
      rw [hlen2] at hr
      rcases Nat.lt_or_ge r n with hrn | hrn
      · have hfr2 : parentD p r = r := by rw [← hpar r]; exact hfr
        have hl1 : (uf.size ++ [1]).getD r 0 = uf.size.getD r 0 :=
          getD_append_left uf.size [1] r 0 (by rw [hsz]; exact hrn)
        rw [hl1, hsizes r hrn hfr2]
        congr 1
        ext i
        simp only [rootsTo, Finset.mem_filter, Finset.mem_range]
        constructor
        · rintro ⟨hi, hri⟩
          exact ⟨by rw [hlen2]; omega, by rw [hroot2 i]; exact hri⟩
        · rintro ⟨hi, hri⟩
          rw [hroot2 i] at hri
          rw [hlen2] at hi
          rcases Nat.lt_or_ge i n with hin | hin
          · exact ⟨hin, hri⟩
          · exfalso
            have hieq : i = n := by omega
            subst hieq
            have hroob : rootD p p.length n = n :=
              rootD_eq_of_Root p n n (Root_self p n (parentD_oob p n (by omega)))
            rw [hroob] at hri
            omega
      · have hreq : r = n := by omega
        subst hreq
        have hl1 : (uf.size ++ [1]).getD n 0 = 1 := by
          rw [← hsz]
          exact getD_append_right_self uf.size 1 0
        rw [hl1]
        have hsing : rootsTo p2 n = {n} := by
          ext i
          simp only [rootsTo, Finset.mem_filter, Finset.mem_range, Finset.mem_singleton]
          constructor
          · rintro ⟨hi, hri⟩
            rw [hroot2 i] at hri
            rw [hlen2] at hi
            rcases Nat.lt_or_ge i n with hin | hin
            · have := hrootlt i hin
              omega
            · omega
          · intro hi
            subst hi
            exact ⟨by rw [hlen2]; omega, hrootn⟩
        rw [hsing, Finset.card_singleton]

theorem Inv_ofList (elements : List Nat) : (UnionFind.ofList elements).Inv := by
  have hgen : ∀ (l : List Nat) (uf : UnionFind), uf.Inv → (l.foldl UnionFind.add uf).Inv := by
    intro l
    induction l with
    | nil => intro uf h; exact h
    | cons a t ih => intro uf h; exact ih (uf.add a) (Inv_add uf h a)
  exact hgen elements UnionFind.empty Inv_empty

theorem SimP_refl (p : List Nat) : SimP p p :=
  ⟨rfl, fun _ _ => Iff.rfl, fun _ => Iff.rfl⟩

theorem SimP_trans (p q r : List Nat) (h1 : SimP p q) (h2 : SimP q r) : SimP p r :=
  ⟨h2.1.trans h1.1, fun j s => (h1.2.1 j s).trans (h2.2.1 j s),
   fun j => (h2.2.2 j).trans (h1.2.2 j)⟩

theorem SimP_rootD (p q : List Nat) (hA : AcyclicP p) (hsim : SimP p q) (j : Nat) :
    rootD q q.length j = rootD p p.length j :=
  roots_eq_of_iff p q hA hsim.2.1 j

theorem SimP_acyclic (p q : List Nat) (hA : AcyclicP p) (hsim : SimP p q) :
    AcyclicP q := by
  intro j
  obtain ⟨r, hr⟩ := hA j
  exact ⟨r, (hsim.2.1 j r).mp hr⟩

theorem findCompress_sim (p : List Nat) (hA : AcyclicP p)
    (hb : ∀ j, j < p.length → parentD p j < p.length) (i : Nat) :
    SimP p (findCompress p p.length i).2 := by
  obtain ⟨_, hlen, hiff, hfix, _, _⟩ := findCompress_at p hA hb i
  exact ⟨hlen, hiff, hfix⟩

/-- Replacing the parent array by a similar acyclic bounded array keeps the
invariant. -/
theorem Inv_parent_replace (uf : UnionFind) (h : uf.Inv) (q : List Nat)
    (hsim : SimP uf.parent q) (hAq : AcyclicP q)
    (hbq : ∀ j, j < q.length → parentD q j < q.length) :
    ({ uf with parent := q } : UnionFind).Inv := by
  obtain ⟨hrk, hsz, hrm, hbnd, hfix, hmap, hnod, hcnt, hsizes⟩ := h
  have hA : AcyclicP uf.parent :=
    Inv_acyclic uf ⟨hrk, hsz, hrm, hbnd, hfix, hmap, hnod, hcnt, hsizes⟩
  obtain ⟨hlen, hiff, hfixiff⟩ := hsim
  refine ⟨?_, ?_, ?_, hbq, ?_, ?_, hnod, ?_, ?_⟩
  · show uf.rank.length = q.length
    rw [hlen, hrk]
  · show uf.size.length = q.length
    rw [hlen, hsz]
  · show uf.reverse_map.length = q.length
    rw [hlen, hrm]
  · intro i _
    exact fix_rootD_of_acyclic q hAq i
  · show uf.id_map = ((List.range q.length).map
      (fun i => (uf.reverse_map.getD i 0, i))).reverse
    rw [hlen]
    exact hmap
  · show uf.num_components =
      ((Finset.range q.length).filter (fun i => parentD q i = i)).card
    rw [hlen, hcnt]
    congr 1
    exact Finset.filter_congr (fun i _ => by rw [hfixiff i])
  · intro r hr hfr
    show uf.size.getD r 0 = (rootsTo q r).card
    rw [hlen] at hr
    have hfrp : parentD uf.parent r = r := (hfixiff r).mp hfr
    rw [hsizes r hr hfrp]
    congr 1
    ext i
    simp only [rootsTo, Finset.mem_filter, Finset.mem_range]
    have hroots := SimP_rootD uf.parent q hA ⟨hlen, hiff, hfixiff⟩ i
    constructor
    · rintro ⟨hi, hri⟩
      exact ⟨by omega, by rw [hroots]; exact hri⟩
    · rintro ⟨hi, hri⟩
      exact ⟨by omega, by rw [← hroots]; exact hri⟩

theorem find_internal_fst (uf : UnionFind) (i : Nat) :
    (uf.find_internal i).1 = (findCompress uf.parent uf.parent.length i).1 := rfl

theorem find_internal_snd (uf : UnionFind) (i : Nat) :
    (uf.find_internal i).2 =
      { uf with parent := (findCompress uf.parent uf.parent.length i).2 } := rfl

/-- `find_internal` under the invariant: returns the representative of the
slot, preserves the invariant, leaves every non-parent field unchanged,
and only rewires parents within the same similarity class. -/
theorem find_internal_spec (uf : UnionFind) (h : uf.Inv) (i : Nat) :
    (uf.find_internal i).1 = rootD uf.parent uf.parent.length i ∧
    ((uf.find_internal i).2).Inv ∧
    SimP uf.parent ((uf.find_internal i).2).parent := by
  have hA : AcyclicP uf.parent := Inv_acyclic uf h
  obtain ⟨hfst, hlen, hiff, hfixiff, hAq, hbq⟩ :=
    findCompress_at uf.parent hA h.2.2.2.1 i
  refine ⟨hfst, ?_, ?_⟩
  · rw [find_internal_snd]
    exact Inv_parent_replace uf h _ ⟨hlen, hiff, hfixiff⟩ hAq
      (fun j hj => by rw [hlen] at hj ⊢; exact hbq j hj)
  · rw [find_internal_snd]
    exact ⟨hlen, hiff, hfixiff⟩

/-- Attaching root `a` under a different root `b` (the union step): the
representative of every node becomes `b` when it used to be `a`, and is
unchanged otherwise. -/
theorem Root_attach (p : List Nat) (a b : Nat) (hfa : parentD p a = a)
    (hfb : parentD p b = b) (hab : a ≠ b) (halt : a < p.length) :
    ∀ k j s, pIter p k j = s → parentD p s = s →
      Root (p.set a b) j (if s = a then b else s) := by
  have hsetb : parentD (p.set a b) a = b := by
    show (p.set a b).getD a a = b
    exact getD_set_self p a b a halt
  have hkeep : ∀ j2, j2 ≠ a → parentD (p.set a b) j2 = parentD p j2 := by
    intro j2 hj2
    show (p.set a b).getD j2 j2 = p.getD j2 j2
    exact getD_set_ne p a b j2 j2 (fun hh => hj2 hh.symm)
  have hfbset : parentD (p.set a b) b = b := by
    rw [hkeep b (fun hh => hab hh.symm)]
    exact hfb
  intro k
  induction k using Nat.strong_induction_on with
  | _ k ih =>
    intro j s hk hfs
    by_cases hj : parentD p j = j
    · have hjs : j = s := by rw [← pIter_fix p j hj k]; exact hk
      by_cases hja : j = a
      · have hsa : s = a := by omega
        rw [if_pos hsa, hja]
        exact ⟨⟨1, by rw [pIter_succ, hsetb]; exact pIter_fix _ b hfbset 0⟩, hfbset⟩
      · have hsa : ¬ s = a := by omega
        rw [if_neg hsa, ← hjs]
        refine Root_self _ j ?_
        rw [hkeep j hja]
        exact hj
    · cases k with
      | zero =>
        have hjs : j = s := hk
        rw [hjs] at hj
        exact absurd hfs hj
      | succ m =>
        have hja : j ≠ a := fun hh => hj (by rw [hh]; exact hfa)
        have htail : pIter p m (parentD p j) = s := by
          rw [← pIter_succ]; exact hk
        have hrec := ih m (by omega) (parentD p j) s htail hfs
        apply Root_step_back
        rw [hkeep j hja]
        exact hrec

/-- Packaged facts about the attach step on the parent array. -/
theorem attach_spec (p : List Nat) (hA : AcyclicP p)
    (hb : ∀ j, j < p.length → parentD p j < p.length)
    (a b : Nat) (hfa : parentD p a = a) (hfb : parentD p b = b)
    (hab : a ≠ b) (halt : a < p.length) (hblt : b < p.length) :
    (p.set a b).length = p.length ∧
    AcyclicP (p.set a b) ∧
    (∀ j, j < (p.set a b).length → parentD (p.set a b) j < (p.set a b).length) ∧
    (∀ j, rootD (p.set a b) (p.set a b).length j =
      (if rootD p p.length j = a then b else rootD p p.length j)) ∧
    (∀ j, parentD (p.set a b) j = j ↔ (parentD p j = j ∧ j ≠ a)) := by
  have hsetb : parentD (p.set a b) a = b := by
    show (p.set a b).getD a a = b
    exact getD_set_self p a b a halt
  have hkeep : ∀ j2, j2 ≠ a → parentD (p.set a b) j2 = parentD p j2 := by
    intro j2 hj2
    show (p.set a b).getD j2 j2 = p.getD j2 j2
    exact getD_set_ne p a b j2 j2 (fun hh => hj2 hh.symm)
  have hatt : ∀ j, Root (p.set a b) j
      (if rootD p p.length j = a then b else rootD p p.length j) := by
    intro j
    have hr := Root_rootD p hA j
    obtain ⟨⟨k, hk⟩, hf⟩ := hr
    exact Root_attach p a b hfa hfb hab halt k j _ hk hf
  have hlen : (p.set a b).length = p.length := List.length_set p a b
  refine ⟨hlen, ?_, ?_, ?_, ?_⟩
  · intro j
    exact ⟨_, hatt j⟩
  · intro j hj
    rw [hlen] at hj ⊢
    by_cases hja : j = a
    · rw [hja, hsetb]; exact hblt
    · rw [hkeep j hja]; exact hb j hj
  · intro j
    exact rootD_eq_of_Root _ j _ (hatt j)
  · intro j
    by_cases hja : j = a
    · subst hja
      rw [hsetb]
      constructor
      · intro hh; exact absurd hh.symm hab
      · rintro ⟨_, hh⟩; exact absurd rfl hh
    · rw [hkeep j hja]
      constructor
      · intro hh; exact ⟨hh, hja⟩
      · rintro ⟨hh, _⟩; exact hh

/-- The union bookkeeping step: attach root `a` under root `b`, accumulate
the size at `b`, decrement the component count (the rank array may change
arbitrarily as long as its length is kept).  The invariant is preserved. -/
theorem Inv_attach (uf : UnionFind) (h : uf.Inv) (a b : Nat) (rk2 : List Nat)
    (hfa : parentD uf.parent a = a) (hfb : parentD uf.parent b = b)
    (hab : a ≠ b) (halt : a < uf.parent.length) (hblt : b < uf.parent.length)
    (hrk2 : rk2.length = uf.rank.length) :
    ({ parent := uf.parent.set a b
       rank := rk2
       size := uf.size.set b (uf.size.getD b 0 + uf.size.getD a 0)
       id_map := uf.id_map
       reverse_map := uf.reverse_map
       num_components := uf.num_components - 1 } : UnionFind).Inv := by
  obtain ⟨hrk, hsz, hrm, hbnd, hfix, hmap, hnod, hcnt, hsizes⟩ := h
  have h : uf.Inv := ⟨hrk, hsz, hrm, hbnd, hfix, hmap, hnod, hcnt, hsizes⟩
  have hA : AcyclicP uf.parent := Inv_acyclic uf h
  set p := uf.parent with hp
  set n := p.length with hn
  obtain ⟨hlen3, hA3, hb3, hroot3, hfix3⟩ :=
    attach_spec p hA hbnd a b hfa hfb hab halt hblt
  set p3 := p.set a b with hp3
  refine ⟨?_, ?_, ?_, hb3, ?_, ?_, hnod, ?_, ?_⟩
  · show rk2.length = p3.length
    rw [hlen3, hrk2, hrk]
  · show (uf.size.set b _).length = p3.length
    rw [List.length_set, hlen3, hsz]
  · show uf.reverse_map.length = p3.length
    rw [hlen3, hrm]
  · intro i _
    exact fix_rootD_of_acyclic p3 hA3 i
  · show uf.id_map = ((List.range p3.length).map
      (fun i => (uf.reverse_map.getD i 0, i))).reverse
    rw [hlen3]
    exact hmap
  · show uf.num_components - 1 =
      ((Finset.range p3.length).filter (fun i => parentD p3 i = i)).card
    have hfilt : (Finset.range p3.length).filter (fun i => parentD p3 i = i) =
        ((Finset.range n).filter (fun i => parentD p i = i)).erase a := by
      ext j
      simp only [Finset.mem_filter, Finset.mem_range, Finset.mem_erase]
      rw [hfix3 j]
      constructor
      · rintro ⟨hj, hjf, hja⟩
        exact ⟨hja, by omega, hjf⟩
      · rintro ⟨hja, hj, hjf⟩
        exact ⟨by omega, hjf, hja⟩
    rw [hfilt]
    have hamem : a ∈ (Finset.range n).filter (fun i => parentD p i = i) := by
      simp only [Finset.mem_filter, Finset.mem_range]
      exact ⟨halt, hfa⟩
    rw [Finset.card_erase_of_mem hamem, hcnt]
  · intro r hr hfr
    rw [hlen3] at hr
    have hfr2 := (hfix3 r).mp hfr
    obtain ⟨hfrp, hra⟩ := hfr2
    by_cases hrb : r = b
    · subst hrb
      have hl1 : (uf.size.set r (uf.size.getD r 0 + uf.size.getD a 0)).getD r 0 =
          uf.size.getD r 0 + uf.size.getD a 0 :=
        getD_set_self uf.size r _ 0 (by rw [hsz]; exact hr)
      show (uf.size.set r _).getD r 0 = (rootsTo p3 r).card
      rw [hl1]
      have hsplit : rootsTo p3 r = rootsTo p a ∪ rootsTo p r := by
        ext i
        simp only [rootsTo, Finset.mem_filter, Finset.mem_range, Finset.mem_union]
        rw [hroot3 i]
        constructor
        · rintro ⟨hi, hri⟩
          by_cases hc : rootD p p.length i = a
          · exact Or.inl ⟨by omega, hc⟩
          · rw [if_neg hc] at hri
            exact Or.inr ⟨by omega, hri⟩
        · rintro (⟨hi, hri⟩ | ⟨hi, hri⟩)
          · exact ⟨by omega, by rw [if_pos hri]⟩
          · refine ⟨by omega, ?_⟩
            rw [if_neg (by rw [hri]; exact fun hh => hab hh.symm)]
            exact hri
      have hdisj : Disjoint (rootsTo p a) (rootsTo p r) := by
        rw [Finset.disjoint_left]
        intro i hia hir
        simp only [rootsTo, Finset.mem_filter] at hia hir
        exact hab (hia.2.symm.trans hir.2) |>.elim
      rw [hsplit, Finset.card_union_of_disjoint hdisj,
        hsizes r hr hfrp, hsizes a halt hfa]
      omega
    · have hl1 : (uf.size.set b (uf.size.getD b 0 + uf.size.getD a 0)).getD r 0 =
          uf.size.getD r 0 :=
        getD_set_ne uf.size b _ 0 r (fun hh => hrb hh.symm)
      show (uf.size.set b _).getD r 0 = (rootsTo p3 r).card
      have heq : rootsTo p3 r = rootsTo p r := by
        ext i
        simp only [rootsTo, Finset.mem_filter, Finset.mem_range]
        rw [hroot3 i]
        constructor
        · rintro ⟨hi, hri⟩
          by_cases hc : rootD p p.length i = a
          · rw [if_pos hc] at hri
            exact absurd hri.symm hrb
          · rw [if_neg hc] at hri
            exact ⟨by omega, hri⟩
        · rintro ⟨hi, hri⟩
          refine ⟨by omega, ?_⟩
          rw [if_neg (by rw [hri]; exact hra)]
          exact hri
      rw [hl1, hsizes r hr hfrp, heq]

theorem get_or_add_of_some (uf : UnionFind) (x i : Nat)
    (hl : lookupId uf.id_map x = some i) : uf.get_or_add_id x = (i, uf) := by
  simp only [UnionFind.get_or_add_id, hl]

theorem get_or_add_of_none (uf : UnionFind) (x : Nat)
    (hl : lookupId uf.id_map x = none) :
    uf.get_or_add_id x = (uf.parent.length, uf.add x) := by
  simp only [UnionFind.get_or_add_id, hl]
  rw [add_of_none uf x hl]
  simp [lookupId]

theorem lookup_add_mono (uf : UnionFind) (z w : Nat) (i : Nat)
    (hz : lookupId uf.id_map z = some i) :
    lookupId (uf.add w).id_map z = some i := by
  cases hw : lookupId uf.id_map w with
  | some j => rw [add_of_some uf w j hw]; exact hz
  | none =>
    rw [add_of_none uf w hw]
    show (if w = z then some uf.parent.length else lookupId uf.id_map z) = some i
    by_cases hwz : w = z
    · subst hwz
      rw [hw] at hz
      exact absurd hz (by simp)
    · rw [if_neg hwz]
      exact hz

theorem get_or_add_spec (uf : UnionFind) (h : uf.Inv) (x : Nat) :
    ((uf.get_or_add_id x).2).Inv ∧
    lookupId (uf.get_or_add_id x).2.id_map x = some (uf.get_or_add_id x).1 ∧
    (uf.get_or_add_id x).1 < (uf.get_or_add_id x).2.parent.length ∧
    uf.parent.length ≤ (uf.get_or_add_id x).2.parent.length := by
  cases hl : lookupId uf.id_map x with
  | some i =>
    rw [get_or_add_of_some uf x i hl]
    exact ⟨h, hl, (lookup_lt uf h x i hl).1, le_refl _⟩
  | none =>
    rw [get_or_add_of_none uf x hl]
    refine ⟨Inv_add uf h x, ?_, ?_, ?_⟩
    · rw [add_of_none uf x hl]
      show (if x = x then some uf.parent.length else _) = some uf.parent.length
      rw [if_pos rfl]
    · rw [add_of_none uf x hl]
      show uf.parent.length < (uf.parent ++ [uf.parent.length]).length
      simp
    · rw [add_of_none uf x hl]
      show uf.parent.length ≤ (uf.parent ++ [uf.parent.length]).length
      simp

/-- `unite` preserves the invariant (for arbitrary arguments, registered
or not). -/
theorem unite_Inv (uf : UnionFind) (h : uf.Inv) (x y : Nat) :
    ((uf.unite x y).2).Inv := by
  obtain ⟨hInva, hla, hlta, hgrowa⟩ := get_or_add_spec uf h x
  obtain ⟨hInvb, hlb, hltb, hgrowb⟩ := get_or_add_spec (uf.get_or_add_id x).2 hInva y
  set ax := uf.get_or_add_id x with hax
  set ay := ax.2.get_or_add_id y with hay
  obtain ⟨hf1, hInvc, hsim1⟩ := find_internal_spec ay.2 hInvb ax.1
  set fx := ay.2.find_internal ax.1 with hfx
  obtain ⟨hf2, hInvd, hsim2⟩ := find_internal_spec fx.2 hInvc ay.1
  set fy := fx.2.find_internal ay.1 with hfy
  have hAb : AcyclicP ay.2.parent := Inv_acyclic ay.2 hInvb
  have hxlt : ax.1 < ay.2.parent.length := by omega
  -- root_x and root_y are representatives in `ay.2.parent`
  have hrx : Root ay.2.parent ax.1 fx.1 := by
    rw [hf1]
    exact Root_rootD ay.2.parent hAb ax.1
  have hry : Root ay.2.parent ay.1 fy.1 := by
    have := SimP_rootD ay.2.parent fx.2.parent hAb hsim1 ay.1
    rw [hf2, this]
    exact Root_rootD ay.2.parent hAb ay.1
  have hfixx : parentD fy.2.parent fx.1 = fx.1 := by
    rw [(SimP_trans _ _ _ hsim1 hsim2).2.2 fx.1]
    exact hrx.2
  have hfixy : parentD fy.2.parent fy.1 = fy.1 := by
    rw [(SimP_trans _ _ _ hsim1 hsim2).2.2 fy.1]
    exact hry.2
  have hlen : fy.2.parent.length = ay.2.parent.length :=
    (SimP_trans _ _ _ hsim1 hsim2).1
  have hxrlt : fx.1 < fy.2.parent.length := by
    rw [hlen]
    exact root_lt ay.2.parent hInvb.2.2.2.1 ax.1 fx.1 hxlt hrx
  have hyrlt : fy.1 < fy.2.parent.length := by
    rw [hlen]
    exact root_lt ay.2.parent hInvb.2.2.2.1 ay.1 fy.1 hltb hry
  show ((if fx.1 = fy.1 then (false, fy.2) else _ : Bool × UnionFind)).2.Inv
  by_cases hroots : fx.1 = fy.1
  · rw [if_pos hroots]
    exact hInvd
  · rw [if_neg hroots]
    by_cases hr1 : fy.2.rank.getD fx.1 0 < fy.2.rank.getD fy.1 0
    · rw [if_pos hr1]
      exact Inv_attach fy.2 hInvd fx.1 fy.1 fy.2.rank hfixx hfixy hroots hxrlt hyrlt rfl
    · rw [if_neg hr1]
      by_cases hr2 : fy.2.rank.getD fy.1 0 < fy.2.rank.getD fx.1 0
      · rw [if_pos hr2]
        exact Inv_attach fy.2 hInvd fy.1 fx.1 fy.2.rank hfixy hfixx
          (fun hh => hroots hh.symm) hyrlt hxrlt rfl
      · rw [if_neg hr2]
        exact Inv_attach fy.2 hInvd fy.1 fx.1
          (fy.2.rank.set fx.1 (fy.2.rank.getD fx.1 0 + 1)) hfixy hfixx
          (fun hh => hroots hh.symm) hyrlt hxrlt (List.length_set _ _ _)

theorem SimP_rootsTo (p q : List Nat) (hA : AcyclicP p) (hsim : SimP p q)
    (r : Nat) : rootsTo q r = rootsTo p r := by
  ext i
  simp only [rootsTo, Finset.mem_filter, Finset.mem_range]
  have hroots := SimP_rootD p q hA hsim i
  have hlen := hsim.1
  constructor
  · rintro ⟨hi, hri⟩
    exact ⟨by omega, by rw [← hroots]; exact hri⟩
  · rintro ⟨hi, hri⟩
    exact ⟨by omega, by rw [hroots]; exact hri⟩

theorem reprOf_replace (uf : UnionFind) (h : uf.Inv) (q : List Nat)
    (hsim : SimP uf.parent q) (z : Nat) :
    ({ uf with parent := q } : UnionFind).reprOf z = uf.reprOf z := by
  have hA : AcyclicP uf.parent := Inv_acyclic uf h
  show (lookupId uf.id_map z).map (fun i => rootD q q.length i) =
    (lookupId uf.id_map z).map (fun i => rootD uf.parent uf.parent.length i)
  cases hl : lookupId uf.id_map z with
  | none => rfl
  | some i =>
    show some (rootD q q.length i) = some (rootD uf.parent uf.parent.length i)
    rw [SimP_rootD uf.parent q hA hsim i]

theorem add_reprOf (uf : UnionFind) (h : uf.Inv) (x z : Nat)
    (hz : uf.contains z = true) : (uf.add x).reprOf z = uf.reprOf z := by
  obtain ⟨i, hi⟩ := Option.isSome_iff_exists.mp hz
  cases hl : lookupId uf.id_map x with
  | some j => rw [add_of_some uf x j hl]
  | none =>
    have hA : AcyclicP uf.parent := Inv_acyclic uf h
    have hmono := lookup_add_mono uf z x i hi
    rw [add_of_none uf x hl] at hmono ⊢
    show (lookupId _ z).map _ = (lookupId uf.id_map z).map _
    rw [hmono, hi]
    have hres : rootD (uf.parent ++ [uf.parent.length])
        (uf.parent ++ [uf.parent.length]).length i = rootD uf.parent uf.parent.length i := by
      rw [rootD_congr (uf.parent ++ [uf.parent.length]) uf.parent (parentD_snoc uf.parent)]
      have hlen : (uf.parent ++ [uf.parent.length]).length = uf.parent.length + 1 := by simp
      rw [hlen]
      exact rootD_fuel_eq uf.parent hA i (uf.parent.length + 1) (by omega)
    show some (rootD (uf.parent ++ [uf.parent.length])
      (uf.parent ++ [uf.parent.length]).length i) = some (rootD uf.parent uf.parent.length i)
    rw [hres]

theorem find_internal_reprOf (uf : UnionFind) (h : uf.Inv) (i z : Nat) :
    ((uf.find_internal i).2).reprOf z = uf.reprOf z := by
  obtain ⟨_, _, hsim⟩ := find_internal_spec uf h i
  rw [find_internal_snd] at hsim ⊢
  exact reprOf_replace uf h _ hsim z

/-- `find` preserves the membership structure on registered elements. -/
theorem find_reprOf (uf : UnionFind) (h : uf.Inv) (x z : Nat)
    (hz : uf.contains z = true) : ((uf.find x).2).reprOf z = uf.reprOf z := by
  obtain ⟨hInva, hla, hlta, hgrowa⟩ := get_or_add_spec uf h x
  have hza : (uf.get_or_add_id x).2.contains z = true := by
    obtain ⟨i, hi⟩ := Option.isSome_iff_exists.mp hz
    cases hl : lookupId uf.id_map x with
    | some j => rw [get_or_add_of_some uf x j hl]; exact hz
    | none =>
      rw [get_or_add_of_none uf x hl]
      show (lookupId (uf.add x).id_map z).isSome = true
      rw [lookup_add_mono uf z x i hi]
      rfl
  have hrepra : (uf.get_or_add_id x).2.reprOf z = uf.reprOf z := by
    cases hl : lookupId uf.id_map x with
    | some j => rw [get_or_add_of_some uf x j hl]
    | none =>
      rw [get_or_add_of_none uf x hl]
      exact add_reprOf uf h x z hz
  show ((uf.get_or_add_id x).2.find_internal (uf.get_or_add_id x).1).2.reprOf z = _
  rw [find_internal_reprOf (uf.get_or_add_id x).2 hInva (uf.get_or_add_id x).1 z, hrepra]

/-- `find` preserves the invariant. -/
theorem find_Inv (uf : UnionFind) (h : uf.Inv) (x : Nat) :
    ((uf.find x).2).Inv := by
  obtain ⟨hInva, _, _, _⟩ := get_or_add_spec uf h x
  obtain ⟨_, hInvc, _⟩ := find_internal_spec (uf.get_or_add_id x).2 hInva (uf.get_or_add_id x).1
  exact hInvc

/-- `get_size`: the returned value at a registered element is the number
of slots sharing its representative; the invariant is preserved and the
membership structure is untouched. -/
theorem get_size_spec (uf : UnionFind) (h : uf.Inv) (x : Nat) :
    ((uf.get_size x).2).Inv ∧
    (∀ z, ((uf.get_size x).2).reprOf z = uf.reprOf z) ∧
    (∀ i, lookupId uf.id_map x = some i →
      (uf.get_size x).1 =
        (rootsTo uf.parent (rootD uf.parent uf.parent.length i)).card) ∧
    (lookupId uf.id_map x = none → uf.get_size x = (0, uf)) := by
  cases hl : lookupId uf.id_map x with
  | none =>
    have hunfold : uf.get_size x = (0, uf) := by
      simp only [UnionFind.get_size, hl]
    rw [hunfold]
    exact ⟨h, fun z => rfl, fun i hi => absurd hi (by simp), fun _ => rfl⟩
  | some i =>
    have hunfold : uf.get_size x =
        ((uf.find_internal i).2.size.getD (uf.find_internal i).1 0,
         (uf.find_internal i).2) := by
      simp only [UnionFind.get_size, hl]
    rw [hunfold]
    obtain ⟨hfst, hInv2, hsim⟩ := find_internal_spec uf h i
    refine ⟨hInv2, fun z => find_internal_reprOf uf h i z, ?_, ?_⟩
    · intro i2 hi2
      have hii : i = i2 := by injection hi2
      subst hii
      show (uf.find_internal i).2.size.getD (uf.find_internal i).1 0 = _
      rw [find_internal_snd, hfst]
      show uf.size.getD (rootD uf.parent uf.parent.length i) 0 = _
      have hilt : i < uf.parent.length := (lookup_lt uf h x i hl).1
      have hroot := Root_rootD uf.parent (Inv_acyclic uf h) i
      exact h.2.2.2.2.2.2.2.2 (rootD uf.parent uf.parent.length i)
        (root_lt uf.parent h.2.2.2.1 i _ hilt hroot) hroot.2
    · intro hc
      exact absurd hc (by simp)

/-- The `get_component` scan loop: it compresses (staying in the same
similarity class) and collects exactly the reverse-map entries of the
slots in `l` whose representative is `root`. -/
theorem collectLoop_spec (root : Nat) (rm : List Nat) :
    ∀ (l : List Nat) (p : List Nat), AcyclicP p →
      (∀ j, j < p.length → parentD p j < p.length) →
      SimP p (collectLoop root rm l p).2 ∧
      (∀ j, j < (collectLoop root rm l p).2.length →
        parentD (collectLoop root rm l p).2 j < (collectLoop root rm l p).2.length) ∧
      (collectLoop root rm l p).1 =
        (l.filter (fun i => rootD p p.length i = root)).map
          (fun i => rm.getD i 0) := by
  intro l
  induction l with
  | nil =>
    intro p hA hb
    exact ⟨SimP_refl p, hb, rfl⟩
  | cons i rest ih =>
    intro p hA hb
    obtain ⟨hfst, hlen, hiff, hfixiff, hAq, hbq⟩ := findCompress_at p hA hb i
    have hsimf : SimP p (findCompress p p.length i).2 := ⟨hlen, hiff, hfixiff⟩
    have hbq2 : ∀ j, j < (findCompress p p.length i).2.length →
        parentD (findCompress p p.length i).2 j < (findCompress p p.length i).2.length := by
      intro j hj
      rw [hlen] at hj ⊢
      exact hbq j hj
    obtain ⟨hsimr, hbr, hfstr⟩ := ih (findCompress p p.length i).2 hAq hbq2
    have hunfold : collectLoop root rm (i :: rest) p =
        (if (findCompress p p.length i).1 = root then
          (rm.getD i 0 ::
            (collectLoop root rm rest (findCompress p p.length i).2).1,
           (collectLoop root rm rest (findCompress p p.length i).2).2)
         else collectLoop root rm rest (findCompress p p.length i).2) := rfl
    have hfilts : (rest.filter
          (fun j => rootD (findCompress p p.length i).2
            (findCompress p p.length i).2.length j = root)) =
        (rest.filter (fun j => rootD p p.length j = root)) := by
      apply List.filter_congr
      intro a _
      rw [SimP_rootD p (findCompress p p.length i).2 hA hsimf a]
    refine ⟨?_, ?_, ?_⟩
    · rw [hunfold]
      by_cases hc : (findCompress p p.length i).1 = root
      · rw [if_pos hc]
        exact SimP_trans p _ _ hsimf hsimr
      · rw [if_neg hc]
        exact SimP_trans p _ _ hsimf hsimr
    · rw [hunfold]
      by_cases hc : (findCompress p p.length i).1 = root
      · rw [if_pos hc]
        exact hbr
      · rw [if_neg hc]
        exact hbr
    · rw [hunfold]
      by_cases hc : (findCompress p p.length i).1 = root
      · rw [if_pos hc]
        show rm.getD i 0 :: (collectLoop root rm rest (findCompress p p.length i).2).1 = _
        rw [hfstr, hfilts]
        have hci : rootD p p.length i = root := by rw [← hfst]; exact hc
        simp only [List.filter_cons, hci]
        simp
      · rw [if_neg hc]
        rw [hfstr, hfilts]
        have hci : ¬ rootD p p.length i = root := by rw [← hfst]; exact hc
        simp only [List.filter_cons, hci]
        simp

/-- `get_component`: preserves the invariant and the membership structure,
and at a registered element returns one entry per slot sharing its
representative. -/
theorem get_component_spec (uf : UnionFind) (h : uf.Inv) (x : Nat) :
    ((uf.get_component x).2).Inv ∧
    (∀ z, ((uf.get_component x).2).reprOf z = uf.reprOf z) ∧
    (∀ i, lookupId uf.id_map x = some i →
      (uf.get_component x).1.length =
        (rootsTo uf.parent (rootD uf.parent uf.parent.length i)).card) ∧
    (lookupId uf.id_map x = none → uf.get_component x = ([], uf)) := by
  cases hl : lookupId uf.id_map x with
  | none =>
    have hunfold : uf.get_component x = ([], uf) := by
      simp only [UnionFind.get_component, hl]
    rw [hunfold]
    exact ⟨h, fun z => rfl, fun i hi => absurd hi (by simp), fun _ => rfl⟩
  | some i =>
    obtain ⟨hfst, hInv2, hsim⟩ := find_internal_spec uf h i
    set f := uf.find_internal i with hf
    have hA2 : AcyclicP f.2.parent := Inv_acyclic f.2 hInv2
    obtain ⟨hsimc, hbc, hfstc⟩ := collectLoop_spec f.1 f.2.reverse_map
      (List.range f.2.parent.length) f.2.parent hA2 hInv2.2.2.2.1
    have hunfold : uf.get_component x =
        ((collectLoop f.1 f.2.reverse_map (List.range f.2.parent.length) f.2.parent).1,
         { f.2 with parent :=
            (collectLoop f.1 f.2.reverse_map (List.range f.2.parent.length) f.2.parent).2 }) := by
      simp only [UnionFind.get_component, hl]
    rw [hunfold]
    have hsimtot : SimP uf.parent
        (collectLoop f.1 f.2.reverse_map (List.range f.2.parent.length) f.2.parent).2 := by
      rw [find_internal_snd] at hsim
      exact SimP_trans _ _ _ hsim hsimc
    refine ⟨?_, ?_, ?_, ?_⟩
    · exact Inv_parent_replace f.2 hInv2 _ hsimc (SimP_acyclic _ _ hA2 hsimc) hbc
    · intro z
      show ({ f.2 with parent := _ } : UnionFind).reprOf z = _
      rw [reprOf_replace f.2 hInv2 _ hsimc z]
      rw [hf]
      exact find_internal_reprOf uf h i z
    · intro i2 hi2
      have hii : i = i2 := by injection hi2
      subst hii
      show (collectLoop f.1 f.2.reverse_map (List.range f.2.parent.length) f.2.parent).1.length = _
      rw [hfstc, List.length_map]
      -- the filtered range counts the slots with representative f.1
      have hroots2 : ∀ j, rootD f.2.parent f.2.parent.length j =
          rootD uf.parent uf.parent.length j := by
        intro j
        rw [hf]
        rw [find_internal_snd]
        exact SimP_rootD uf.parent _ (Inv_acyclic uf h)
          (by rw [find_internal_snd] at hsim; exact hsim) j
      have hlen2 : f.2.parent.length = uf.parent.length := by
        rw [hf, find_internal_snd]
        rw [find_internal_snd] at hsim
        exact hsim.1
      have hfeq : f.1 = rootD uf.parent uf.parent.length i := by rw [hf]; exact hfst
      have hfilteq : (List.range f.2.parent.length).filter
          (fun j => rootD f.2.parent f.2.parent.length j = f.1) =
          (List.range f.2.parent.length).filter
          (fun j => rootD uf.parent uf.parent.length j =
            rootD uf.parent uf.parent.length i) := by
        apply List.filter_congr
        intro a _
        rw [hroots2 a, hfeq]
      rw [hfilteq, hlen2]
      rfl
    · intro hc
      exact absurd hc (by simp)

/-- On the same state, `get_size` returns exactly the length of
`get_component`: the size bookkeeping agrees with membership enumeration. -/
theorem get_size_eq_component_length (uf : UnionFind) (h : uf.Inv) (x : Nat) :
    (uf.get_size x).1 = (uf.get_component x).1.length := by
  cases hl : lookupId uf.id_map x with
  | none =>
    obtain ⟨_, _, _, hn⟩ := get_size_spec uf h x
    obtain ⟨_, _, _, hn2⟩ := get_component_spec uf h x
    rw [hn hl, hn2 hl]
    rfl
  | some i =>
    obtain ⟨_, _, hs, _⟩ := get_size_spec uf h x
    obtain ⟨_, _, hc, _⟩ := get_component_spec uf h x
    rw [hs i hl, hc i hl]

/-- `get_component` called right after `get_size` (the hierarchical
watershed's emission sequence) enumerates exactly as many voxels as the
size that was just read. -/
theorem comp_length_after_size (uf : UnionFind) (h : uf.Inv) (x : Nat) :
    ((uf.get_size x).2.get_component x).1.length = (uf.get_size x).1 := by
  cases hl : lookupId uf.id_map x with
  | none =>
    obtain ⟨_, _, _, hn⟩ := get_size_spec uf h x
    rw [hn hl]
    obtain ⟨_, _, _, hn2⟩ := get_component_spec uf h x
    rw [hn2 hl]
    rfl
  | some i =>
    obtain ⟨hInv2, _, hs, _⟩ := get_size_spec uf h x
    have hunf2 : (uf.get_size x).2 = (uf.find_internal i).2 := by
      simp only [UnionFind.get_size, hl]
    obtain ⟨_, _, hsim⟩ := find_internal_spec uf h i
    rw [find_internal_snd] at hsim
    have hl2 : lookupId (uf.get_size x).2.id_map x = some i := by
      rw [hunf2, find_internal_snd]
      exact hl
    rw [hunf2] at hInv2 ⊢
    obtain ⟨_, _, hc, _⟩ := get_component_spec (uf.find_internal i).2 hInv2 x
    rw [hc i (by rw [find_internal_snd]; exact hl), hs i hl]
    rw [find_internal_snd]
    show ((rootsTo _ (rootD _ _ i)).card : Nat) = _
    have hA : AcyclicP uf.parent := Inv_acyclic uf h
    rw [SimP_rootD uf.parent _ hA hsim i, SimP_rootsTo uf.parent _ hA hsim]

theorem Inv_applyOp (uf : UnionFind) (h : uf.Inv) (op : UFOp) :
    (uf.applyOp op).Inv := by
  cases op with
  | addOp x => exact Inv_add uf h x
  | findOp x => exact find_Inv uf h x
  | uniteOp x y => exact unite_Inv uf h x y
  | sizeOp x => exact (get_size_spec uf h x).1
  | compOp x => exact (get_component_spec uf h x).1

theorem Inv_applyOps (uf : UnionFind) (h : uf.Inv) (ops : List UFOp) :
    (uf.applyOps ops).Inv := by
  induction ops generalizing uf with
  | nil => exact h
  | cons op rest ih => exact ih (uf.applyOp op) (Inv_applyOp uf h op)

/-- `unite` on two registered elements: the returned Bool is `true` exactly
when the two representatives differ, and the union-by-rank tie-break
attaches the lower-rank root under the higher-rank root; on a tie, `y`'s
root goes under `x`'s root and `x`'s root's rank is incremented. -/
theorem unite_rank_behavior (uf : UnionFind) (h : uf.Inv) (x y : Nat)
    (hx : uf.contains x = true) (hy : uf.contains y = true) :
    ((uf.unite x y).1 = true ↔ uf.reprOf x ≠ uf.reprOf y) ∧
    (∀ rx ry, uf.reprOf x = some rx → uf.reprOf y = some ry → rx ≠ ry →
      ((uf.rank.getD rx 0 < uf.rank.getD ry 0 →
         parentD (uf.unite x y).2.parent rx = ry ∧ (uf.unite x y).2.rank = uf.rank) ∧
       (uf.rank.getD ry 0 < uf.rank.getD rx 0 →
         parentD (uf.unite x y).2.parent ry = rx ∧ (uf.unite x y).2.rank = uf.rank) ∧
       (uf.rank.getD rx 0 = uf.rank.getD ry 0 →
         parentD (uf.unite x y).2.parent ry = rx ∧
         (uf.unite x y).2.rank.getD rx 0 = uf.rank.getD rx 0 + 1))) := by
  obtain ⟨idx, hidx⟩ := Option.isSome_iff_exists.mp hx
  obtain ⟨idy, hidy⟩ := Option.isSome_iff_exists.mp hy
  have hax : uf.get_or_add_id x = (idx, uf) := get_or_add_of_some uf x idx hidx
  have hay : uf.get_or_add_id y = (idy, uf) := get_or_add_of_some uf y idy hidy
  have hA : AcyclicP uf.parent := Inv_acyclic uf h
  have hidxlt : idx < uf.parent.length := (lookup_lt uf h x idx hidx).1
  have hidylt : idy < uf.parent.length := (lookup_lt uf h y idy hidy).1
  obtain ⟨hr1, hInv1, hsim1⟩ := find_internal_spec uf h idx
  obtain ⟨hr2, hInv2, hsim2⟩ := find_internal_spec (uf.find_internal idx).2 hInv1 idy
  have hreprx : uf.reprOf x = some (rootD uf.parent uf.parent.length idx) := by
    show (lookupId uf.id_map x).map _ = _
    rw [hidx]
    rfl
  have hrepry : uf.reprOf y = some (rootD uf.parent uf.parent.length idy) := by
    show (lookupId uf.id_map y).map _ = _
    rw [hidy]
    rfl
  have hr2eq : ((uf.find_internal idx).2.find_internal idy).1 =
      rootD uf.parent uf.parent.length idy := by
    rw [hr2]
    rw [find_internal_snd] at hsim1
    exact SimP_rootD uf.parent _ hA hsim1 idy
  have hunf : uf.unite x y =
      (let fx := uf.find_internal idx
       let fy := fx.2.find_internal idy
       let uf1 := fy.2
       if fx.1 = fy.1 then (false, uf1)
       else if uf1.rank.getD fx.1 0 < uf1.rank.getD fy.1 0 then
         (true, { uf1 with
                  parent := uf1.parent.set fx.1 fy.1
                  size := uf1.size.set fy.1 (uf1.size.getD fy.1 0 + uf1.size.getD fx.1 0)
                  num_components := uf1.num_components - 1 })
       else if uf1.rank.getD fy.1 0 < uf1.rank.getD fx.1 0 then
         (true, { uf1 with
                  parent := uf1.parent.set fy.1 fx.1
                  size := uf1.size.set fx.1 (uf1.size.getD fx.1 0 + uf1.size.getD fy.1 0)
                  num_components := uf1.num_components - 1 })
       else
         (true, { uf1 with
                  parent := uf1.parent.set fy.1 fx.1
                  size := uf1.size.set fx.1 (uf1.size.getD fx.1 0 + uf1.size.getD fy.1 0)
                  rank := uf1.rank.set fx.1 (uf1.rank.getD fx.1 0 + 1)
                  num_components := uf1.num_components - 1 })) := by
    simp only [UnionFind.unite, hax, hay]
  set fx := uf.find_internal idx with hfx
  set fy := fx.2.find_internal idy with hfy
  have hrank1 : fy.2.rank = uf.rank := rfl
  have hlen1 : fy.2.parent.length = uf.parent.length := hsim2.1.trans hsim1.1
  have hxroot : Root uf.parent idx fx.1 := by
    rw [hr1]
    exact Root_rootD uf.parent hA idx
  have hyroot : Root uf.parent idy fy.1 := by
    rw [hr2eq]
    exact Root_rootD uf.parent hA idy
  have hrxlt : fx.1 < uf.parent.length :=
    root_lt uf.parent h.2.2.2.1 idx fx.1 hidxlt hxroot
  have hrylt : fy.1 < uf.parent.length :=
    root_lt uf.parent h.2.2.2.1 idy fy.1 hidylt hyroot
  have hranklen : uf.rank.length = uf.parent.length := h.1
  constructor
  · rw [hunf]
    by_cases hroots : fx.1 = fy.1
    · rw [if_pos hroots]
      simp only [Bool.false_eq_true, false_iff, not_not]
      rw [hreprx, hrepry]
      rw [hr1, hr2eq] at hroots
      rw [hroots]
    · rw [if_neg hroots]
      have hrne : uf.reprOf x ≠ uf.reprOf y := by
        rw [hreprx, hrepry]
        intro hc
        injection hc with hc2
        apply hroots
        rw [hr1, hr2eq]
        exact hc2
      by_cases hc1 : fy.2.rank.getD fx.1 0 < fy.2.rank.getD fy.1 0
      · rw [if_pos hc1]
        simp only [true_iff]
        exact hrne
      · rw [if_neg hc1]
        by_cases hc2 : fy.2.rank.getD fy.1 0 < fy.2.rank.getD fx.1 0
        · rw [if_pos hc2]
          simp only [true_iff]
          exact hrne
        · rw [if_neg hc2]
          simp only [true_iff]
          exact hrne
  · intro rx ry hrx hry hrne
    have hrxv : rx = fx.1 := by
      rw [hreprx] at hrx
      injection hrx with hc
      rw [hr1]
      omega
    have hryv : ry = fy.1 := by
      rw [hrepry] at hry
      injection hry with hc
      rw [hr2eq]
      omega
    subst hrxv
    subst hryv
    have hroots : ¬ fx.1 = fy.1 := hrne
    refine ⟨?_, ?_, ?_⟩
    · intro hlt
      rw [hunf, if_neg hroots, if_pos (by rw [hrank1]; exact hlt)]
      constructor
      · show parentD (fy.2.parent.set fx.1 fy.1) fx.1 = fy.1
        show (fy.2.parent.set fx.1 fy.1).getD fx.1 fx.1 = fy.1
        exact getD_set_self fy.2.parent fx.1 fy.1 fx.1 (by rw [hlen1]; exact hrxlt)
      · rfl
    · intro hlt
      have hnc1 : ¬ fy.2.rank.getD fx.1 0 < fy.2.rank.getD fy.1 0 := by
        rw [hrank1]; omega
      rw [hunf, if_neg hroots, if_neg hnc1, if_pos (by rw [hrank1]; exact hlt)]
      constructor
      · show parentD (fy.2.parent.set fy.1 fx.1) fy.1 = fx.1
        show (fy.2.parent.set fy.1 fx.1).getD fy.1 fy.1 = fx.1
        exact getD_set_self fy.2.parent fy.1 fx.1 fy.1 (by rw [hlen1]; exact hrylt)
      · rfl
    · intro heq
      have hnc1 : ¬ fy.2.rank.getD fx.1 0 < fy.2.rank.getD fy.1 0 := by
        rw [hrank1]; omega
      have hnc2 : ¬ fy.2.rank.getD fy.1 0 < fy.2.rank.getD fx.1 0 := by
        rw [hrank1]; omega
      rw [hunf, if_neg hroots, if_neg hnc1, if_neg hnc2]
      constructor
      · show parentD (fy.2.parent.set fy.1 fx.1) fy.1 = fx.1
        show (fy.2.parent.set fy.1 fx.1).getD fy.1 fy.1 = fx.1
        exact getD_set_self fy.2.parent fy.1 fx.1 fy.1 (by rw [hlen1]; exact hrylt)
      · show (fy.2.rank.set fx.1 (fy.2.rank.getD fx.1 0 + 1)).getD fx.1 0 =
          uf.rank.getD fx.1 0 + 1
        rw [hrank1]
        exact getD_set_self uf.rank fx.1 _ 0 (by rw [hranklen]; exact hrxlt)

theorem decode_recompose (height width idx : Nat) :
    decodeZ height width idx * (height * width) +
      decodeY height width idx * width + decodeX width idx = idx := by
  unfold decodeZ decodeY decodeX
  have h1 := Nat.div_add_mod idx (height * width)
  have h2 := Nat.div_add_mod (idx % (height * width)) width
  have h3 : (idx % (height * width)) % width = idx % width :=
    Nat.mod_mod_of_dvd idx ⟨height, Nat.mul_comm height width⟩
  rw [Nat.mul_comm (height * width) (idx / (height * width))] at h1
  rw [Nat.mul_comm width (idx % (height * width) / width)] at h2
  omega

theorem decode_inj (height width a b : Nat)
    (hz : decodeZ height width a = decodeZ height width b)
    (hy : decodeY height width a = decodeY height width b)
    (hx : decodeX width a = decodeX width b) : a = b := by
  have ha := decode_recompose height width a
  have hb := decode_recompose height width b
  rw [hz, hy, hx] at ha
  omega

theorem encode_lt (depth height width z y x : Nat)
    (hz : z < depth) (hy : y < height) (hx : x < width) :
    z * (height * width) + y * width + x < depth * height * width := by
  have h1 : y * width + x < height * width := by
    calc y * width + x < y * width + width := by omega
    _ = (y + 1) * width := by ring
    _ ≤ height * width := Nat.mul_le_mul_right width hy
  calc z * (height * width) + y * width + x
      < z * (height * width) + height * width := by omega
    _ = (z + 1) * (height * width) := by ring
    _ ≤ depth * (height * width) := Nat.mul_le_mul_right (height * width) hz
    _ = depth * height * width := by rw [Nat.mul_assoc]

theorem decode_bounds (depth height width idx : Nat)
    (h : idx < depth * height * width) (hh : 0 < height) (hw : 0 < width) :
    decodeZ height width idx < depth ∧ decodeY height width idx < height ∧
      decodeX width idx < width := by
  refine ⟨?_, ?_, ?_⟩
  · unfold decodeZ
    rw [Nat.div_lt_iff_lt_mul (by positivity)]
    calc idx < depth * height * width := h
    _ = depth * (height * width) := by ring
  · unfold decodeY
    rw [Nat.div_lt_iff_lt_mul hw]
    exact Nat.mod_lt idx (by positivity)
  · exact Nat.mod_lt idx hw

/-- The neighbor scan of one popped voxel pushes some list `new` of
fresh, in-grid, foreground voxels (each marked at push time), appending
two edge entries and one weight per push. -/
theorem neighborFold_spec (fg : Nat → Bool) (ctr : Nat → ℚ)
    (depth height width idx : Nat) :
    ∀ (offs : List (Int × Int × Int)) (q : List Nat) (seen : Finset Nat)
      (e : List Nat) (ws : List ℚ),
      ∃ (new : List Nat) (e2 : List Nat) (w2 : List ℚ),
        offs.foldl (neighborFold fg ctr depth height width idx) (q, seen, e, ws) =
          (new.reverse ++ q, seen ∪ new.toFinset, e2, w2) ∧
        e2.length = e.length + 2 * new.length ∧
        w2.length = ws.length + new.length ∧
        new.Nodup ∧
        (∀ a ∈ new, a < depth * height * width ∧ a ∉ seen ∧ fg a = true) := by
  intro offs
  induction offs with
  | nil =>
    intro q seen e ws
    refine ⟨[], e, ws, ?_, by simp, by simp, List.nodup_nil, by simp⟩
    simp
  | cons off rest ih =>
    intro q seen e ws
    rw [List.foldl_cons]
    show ∃ new e2 w2, List.foldl _ (neighborFold fg ctr depth height width idx
      (q, seen, e, ws) off) rest = _ ∧ _
    by_cases hb : 0 ≤ (decodeZ height width idx : Int) + off.1 ∧
        (decodeZ height width idx : Int) + off.1 < (depth : Int) ∧
        0 ≤ (decodeY height width idx : Int) + off.2.1 ∧
        (decodeY height width idx : Int) + off.2.1 < (height : Int) ∧
        0 ≤ (decodeX width idx : Int) + off.2.2 ∧
        (decodeX width idx : Int) + off.2.2 < (width : Int)
    · have hstep0 : neighborFold fg ctr depth height width idx (q, seen, e, ws) off =
          (if fg (((decodeZ height width idx : Int) + off.1).toNat * (height * width) +
              ((decodeY height width idx : Int) + off.2.1).toNat * width +
              ((decodeX width idx : Int) + off.2.2).toNat) = true ∧
              (((decodeZ height width idx : Int) + off.1).toNat * (height * width) +
              ((decodeY height width idx : Int) + off.2.1).toNat * width +
              ((decodeX width idx : Int) + off.2.2).toNat) ∉ seen then
            ((((decodeZ height width idx : Int) + off.1).toNat * (height * width) +
              ((decodeY height width idx : Int) + off.2.1).toNat * width +
              ((decodeX width idx : Int) + off.2.2).toNat) :: q,
             insert (((decodeZ height width idx : Int) + off.1).toNat * (height * width) +
              ((decodeY height width idx : Int) + off.2.1).toNat * width +
              ((decodeX width idx : Int) + off.2.2).toNat) seen,
             e ++ [idx, (((decodeZ height width idx : Int) + off.1).toNat * (height * width) +
              ((decodeY height width idx : Int) + off.2.1).toNat * width +
              ((decodeX width idx : Int) + off.2.2).toNat)],
             ws ++ [(ctr idx + ctr ((((decodeZ height width idx : Int) + off.1).toNat * (height * width) +
              ((decodeY height width idx : Int) + off.2.1).toNat * width +
              ((decodeX width idx : Int) + off.2.2).toNat))) / 2])
          else (q, seen, e, ws)) := by
        show (if 0 ≤ (decodeZ height width idx : Int) + off.1 ∧ _ then _ else _) = _
        rw [if_pos hb]
      set nidx := (((decodeZ height width idx : Int) + off.1).toNat * (height * width) +
              ((decodeY height width idx : Int) + off.2.1).toNat * width +
              ((decodeX width idx : Int) + off.2.2).toNat) with hnidx
      have hnlt : nidx < depth * height * width := by
        rw [hnidx]
        have h1 : ((decodeZ height width idx : Int) + off.1).toNat < depth := by omega
        have h2 : ((decodeY height width idx : Int) + off.2.1).toNat < height := by omega
        have h3 : ((decodeX width idx : Int) + off.2.2).toNat < width := by omega
        have := encode_lt depth height width _ _ _ h1 h2 h3
        omega
      by_cases hc : fg nidx = true ∧ nidx ∉ seen
      · rw [hstep0, if_pos hc]
        obtain ⟨new2, e2, w2, hfold, he2, hw2, hnd, hmem⟩ :=
          ih (nidx :: q) (insert nidx seen) (e ++ [idx, nidx])
            (ws ++ [(ctr idx + ctr nidx) / 2])
        refine ⟨nidx :: new2, e2, w2, ?_, ?_, ?_, ?_, ?_⟩
        · rw [hfold]
          congr 1
          · rw [List.reverse_cons, List.append_assoc]
            rfl
          · congr 1
            ext a
            simp only [Finset.mem_union, Finset.mem_insert, List.mem_toFinset,
              List.mem_cons]
            tauto
        · rw [he2]
          simp only [List.length_append, List.length_cons]
          simp
          omega
        · rw [hw2]
          simp only [List.length_append, List.length_cons]
          simp
          omega
        · refine List.Nodup.cons ?_ hnd
          intro hmem2
          exact ((hmem nidx hmem2).2.1 (Finset.mem_insert_self nidx seen))
        · intro a ha
          rcases List.mem_cons.mp ha with ha1 | ha1
          · subst ha1
            exact ⟨hnlt, hc.2, hc.1⟩
          · obtain ⟨hb1, hb2, hb3⟩ := hmem a ha1
            exact ⟨hb1, fun hh => hb2 (Finset.mem_insert_of_mem hh), hb3⟩
      · rw [hstep0, if_neg hc]
        exact ih q seen e ws
    · have hstep0 : neighborFold fg ctr depth height width idx (q, seen, e, ws) off =
          (q, seen, e, ws) := by
        show (if 0 ≤ (decodeZ height width idx : Int) + off.1 ∧ _ then _ else _) = _
        rw [if_neg hb]
      rw [hstep0]
      exact ih q seen e ws

theorem FFPost_refl (fg : Nat → Bool) (N height width : Nat) (st : FFState) :
    FFPost fg N height width st st := by
  refine ⟨[], by simp, Finset.Subset.refl _, ?_, ?_, ?_, ?_, ?_, by omega, by omega, rfl⟩
  · intro a ha
    exact Finset.mem_union_left _ (Finset.mem_union_left _ ha)
  · simp
  · intro a ha
    exact absurd ha (List.not_mem_nil a)
  · intro a ha
    exact Or.inr ha
  · intro a ha
    exact absurd ha (List.not_mem_nil a)

/-- One pop step preserves the flood-fill invariant. -/
theorem FFInv_step (fg : Nat → Bool) (depth height width idx : Nat)
    (rest : List Nat) (seen : Finset Nat) (vis : List Nat) (ed : List Nat)
    (ws : List ℚ) (bb : Nat × Nat × Nat × Nat × Nat × Nat)
    (P : List Nat) (e2 : List Nat) (w2 : List ℚ)
    (hqnd : (idx :: rest).Nodup) (hvnd : vis.Nodup)
    (hdisj : ∀ a ∈ idx :: rest, a ∉ vis)
    (hvseen : ∀ a ∈ vis, a ∈ seen)
    (hqseen : (∀ a ∈ idx :: rest, a ∈ seen) ∨ (∃ s, idx :: rest = [s]))
    (hPnd : P.Nodup)
    (hPmem : ∀ a ∈ P, a < depth * height * width ∧ a ∉ insert idx seen ∧ fg a = true) :
    FFInv ⟨P.reverse ++ rest, insert idx seen ∪ P.toFinset,
      vis ++ [idx], e2, w2, bboxFold height width bb idx⟩ := by
  have hrestnd : rest.Nodup := (List.nodup_cons.mp hqnd).2
  have hidxrest : idx ∉ rest := (List.nodup_cons.mp hqnd).1
  have hrest_seen : ∀ a ∈ rest, a ∈ seen := by
    rcases hqseen with hall | ⟨s, hs⟩
    · intro a ha
      exact hall a (List.mem_cons_of_mem idx ha)
    · intro a ha
      rw [List.cons.injEq] at hs
      rw [hs.2] at ha
      exact absurd ha (List.not_mem_nil a)
  have hPfresh : ∀ a ∈ P, a ∉ insert idx seen := fun a ha => (hPmem a ha).2.1
  refine ⟨?_, ?_, ?_, ?_, Or.inl ?_⟩
  · refine List.Nodup.append (List.nodup_reverse.mpr hPnd) hrestnd ?_
    intro a haP haR
    rw [List.mem_reverse] at haP
    exact hPfresh a haP (Finset.mem_insert_of_mem (hrest_seen a haR))
  · refine List.Nodup.append hvnd (List.nodup_singleton idx) ?_
    intro a haV haI
    rw [List.mem_singleton] at haI
    rw [haI] at haV
    exact hdisj idx (List.mem_cons_self idx rest) haV
  · intro a ha hav
    rcases List.mem_append.mp ha with haP | haR
    · rw [List.mem_reverse] at haP
      rcases List.mem_append.mp hav with hv1 | hv2
      · exact hPfresh a haP (Finset.mem_insert_of_mem (hvseen a hv1))
      · rw [List.mem_singleton] at hv2
        rw [hv2] at haP
        exact hPfresh idx haP (Finset.mem_insert_self idx seen)
    · rcases List.mem_append.mp hav with hv1 | hv2
      · exact hdisj a (List.mem_cons_of_mem idx haR) hv1
      · rw [List.mem_singleton] at hv2
        rw [hv2] at haR
        exact hidxrest haR
  · intro a ha
    rcases List.mem_append.mp ha with hv1 | hv2
    · exact Finset.mem_union_left _ (Finset.mem_insert_of_mem (hvseen a hv1))
    · rw [List.mem_singleton] at hv2
      rw [hv2]
      exact Finset.mem_union_left _ (Finset.mem_insert_self idx seen)
  · intro a ha
    rcases List.mem_append.mp ha with haP | haR
    · rw [List.mem_reverse] at haP
      exact Finset.mem_union_right _ (List.mem_toFinset.mpr haP)
    · exact Finset.mem_union_left _ (Finset.mem_insert_of_mem (hrest_seen a haR))

theorem ffLoopFuel_master (fg : Nat → Bool) (ctr : Nat → ℚ)
    (depth height width : Nat) :
    ∀ (fuel : Nat) (st : FFState), FFInv st →
      FFInv (ffLoopFuel fg ctr depth height width fuel st) ∧
      FFPost fg (depth * height * width) height width st
        (ffLoopFuel fg ctr depth height width fuel st) := by
  intro fuel
  induction fuel with
  | zero =>
    intro st hInv
    exact ⟨hInv, FFPost_refl fg _ height width st⟩
  | succ fuel ih =>
    intro st hInv
    obtain ⟨q, seen, vis, ed, ws, bb⟩ := st
    cases q with
    | nil => exact ⟨hInv, FFPost_refl fg _ height width _⟩
    | cons idx rest =>
      obtain ⟨hqnd, hvnd, hdisj, hvseen, hqseen⟩ := hInv
      simp only at hqnd hvnd hdisj hvseen hqseen
      obtain ⟨P, e2, w2, hfold, he2, hw2, hPnd, hPmem⟩ :=
        neighborFold_spec fg ctr depth height width idx offsets rest
          (insert idx seen) ed ws
      have hstep : ffLoopFuel fg ctr depth height width (fuel+1)
          ⟨idx :: rest, seen, vis, ed, ws, bb⟩ =
          ffLoopFuel fg ctr depth height width fuel
            ⟨P.reverse ++ rest, insert idx seen ∪ P.toFinset, vis ++ [idx], e2, w2,
             bboxFold height width bb idx⟩ := by
        show ffLoopFuel fg ctr depth height width fuel
          ⟨(offsets.foldl (neighborFold fg ctr depth height width idx)
              (rest, insert idx seen, ed, ws)).1,
           (offsets.foldl (neighborFold fg ctr depth height width idx)
              (rest, insert idx seen, ed, ws)).2.1,
           vis ++ [idx],
           (offsets.foldl (neighborFold fg ctr depth height width idx)
              (rest, insert idx seen, ed, ws)).2.2.1,
           (offsets.foldl (neighborFold fg ctr depth height width idx)
              (rest, insert idx seen, ed, ws)).2.2.2,
           bboxFold height width bb idx⟩ = _
        rw [hfold]
      rw [hstep]
      have hrestnd : rest.Nodup := (List.nodup_cons.mp hqnd).2
      have hidxrest : idx ∉ rest := (List.nodup_cons.mp hqnd).1
      have hrest_seen : ∀ a ∈ rest, a ∈ seen := by
        rcases hqseen with hall | ⟨s, hs⟩
        · intro a ha
          exact hall a (List.mem_cons_of_mem idx ha)
        · intro a ha
          rw [List.cons.injEq] at hs
          rw [hs.2] at ha
          exact absurd ha (List.not_mem_nil a)
      have hPfresh : ∀ a ∈ P, a ∉ insert idx seen := fun a ha => (hPmem a ha).2.1
      have hInv2 := FFInv_step fg depth height width idx rest seen vis ed ws bb
        P e2 w2 hqnd hvnd hdisj hvseen hqseen hPnd hPmem
      obtain ⟨hInvFin, dl2, hvis2, hseengrow2, hseensub2, hdlseen2, hdlold2,
        hqfate2, hdlnew2, hcount2, hecount2, hbbox2⟩ := ih _ hInv2
      set fin := ffLoopFuel fg ctr depth height width fuel
        ⟨P.reverse ++ rest, insert idx seen ∪ P.toFinset, vis ++ [idx], e2, w2,
         bboxFold height width bb idx⟩ with hfin
      refine ⟨hInvFin, idx :: dl2, ?_, ?_, ?_, ?_, ?_, ?_, ?_, ?_, ?_, ?_⟩
      · rw [hvis2]
        simp
      · intro a ha
        exact hseengrow2 (Finset.mem_union_left _ (Finset.mem_insert_of_mem ha))
      · intro a ha
        have := hseensub2 ha
        rcases Finset.mem_union.mp this with h1 | hq
        · rcases Finset.mem_union.mp h1 with h2 | hdl
          · rcases Finset.mem_union.mp h2 with h3 | hP
            · rcases Finset.mem_insert.mp h3 with h4 | h5
              · refine Finset.mem_union_left _ (Finset.mem_union_right _ ?_)
                rw [List.mem_toFinset, h4]
                exact List.mem_cons_self idx dl2
              · exact Finset.mem_union_left _ (Finset.mem_union_left _ h5)
            · rw [List.mem_toFinset] at hP
              rcases hqfate2 a (List.mem_append.mpr (Or.inl (List.mem_reverse.mpr hP)))
                with hdl | hq2
              · refine Finset.mem_union_left _ (Finset.mem_union_right _ ?_)
                rw [List.mem_toFinset]
                exact List.mem_cons_of_mem idx hdl
              · exact Finset.mem_union_right _ (List.mem_toFinset.mpr hq2)
          · refine Finset.mem_union_left _ (Finset.mem_union_right _ ?_)
            rw [List.mem_toFinset] at hdl ⊢
            exact List.mem_cons_of_mem idx hdl
        · exact Finset.mem_union_right _ hq
      · intro a ha
        rw [List.mem_toFinset] at ha
        rcases List.mem_cons.mp ha with h1 | h2
        · rw [h1]
          exact hseengrow2 (Finset.mem_union_left _ (Finset.mem_insert_self idx seen))
        · exact hdlseen2 (List.mem_toFinset.mpr h2)
      · intro a ha hseen0
        rcases List.mem_cons.mp ha with h1 | h2
        · rw [h1]
          exact List.mem_cons_self idx rest
        · have ha2 := hdlold2 a h2 (Finset.mem_union_left _ (Finset.mem_insert_of_mem hseen0))
          rcases List.mem_append.mp ha2 with haP | haR
          · rw [List.mem_reverse] at haP
            exact absurd (Finset.mem_insert_of_mem hseen0) (hPfresh a haP)
          · exact List.mem_cons_of_mem idx haR
      · intro a ha
        rcases List.mem_cons.mp ha with h1 | h2
        · rw [h1]
          exact Or.inl (List.mem_cons_self idx dl2)
        · rcases hqfate2 a (List.mem_append.mpr (Or.inr h2)) with hdl | hq2
          · exact Or.inl (List.mem_cons_of_mem idx hdl)
          · exact Or.inr hq2
      · intro a ha
        rcases List.mem_cons.mp ha with h1 | h2
        · rw [h1]
          exact Or.inl (List.mem_cons_self idx rest)
        · rcases hdlnew2 a h2 with hq2 | hnew
          · rcases List.mem_append.mp hq2 with haP | haR
            · rw [List.mem_reverse] at haP
              obtain ⟨hb1, hb2, hb3⟩ := hPmem a haP
              exact Or.inr ⟨hb3, hb1, fun hh => hb2 (Finset.mem_insert_of_mem hh)⟩
            · exact Or.inl (List.mem_cons_of_mem idx haR)
          · refine Or.inr ⟨hnew.1, hnew.2.1, fun hh => hnew.2.2 ?_⟩
            exact Finset.mem_union_left _ (Finset.mem_insert_of_mem hh)
      · have hql : (P.reverse ++ rest).length = P.length + rest.length := by simp
        have hvl : (vis ++ [idx]).length = vis.length + 1 := by simp
        simp only [List.length_cons]
        dsimp only at hcount2 hecount2
        omega
      · dsimp only at hcount2 hecount2 ⊢
        omega
      · rw [hbbox2]
        rfl

/-- The fuel `ffLoop` supplies always drains the work list: each iteration
pops one entry and every push marks a previously unseen in-grid voxel. -/
theorem ffLoopFuel_terminates (fg : Nat → Bool) (ctr : Nat → ℚ)
    (depth height width : Nat) :
    ∀ (fuel : Nat) (st : FFState), FFInv st →
      st.queue.length +
        2 * ((Finset.range (depth * height * width)) \ st.seen).card ≤ fuel →
      (ffLoopFuel fg ctr depth height width fuel st).queue = [] := by
  intro fuel
  induction fuel with
  | zero =>
    intro st _ hle
    have hq : st.queue.length = 0 := by omega
    show st.queue = []
    exact List.length_eq_zero.mp hq
  | succ fuel ih =>
    intro st hInv hle
    obtain ⟨q, seen, vis, ed, ws, bb⟩ := st
    cases q with
    | nil => rfl
    | cons idx rest =>
      obtain ⟨hqnd, hvnd, hdisj, hvseen, hqseen⟩ := hInv
      simp only at hqnd hvnd hdisj hvseen hqseen
      obtain ⟨P, e2, w2, hfold, he2, hw2, hPnd, hPmem⟩ :=
        neighborFold_spec fg ctr depth height width idx offsets rest
          (insert idx seen) ed ws
      have hstep : ffLoopFuel fg ctr depth height width (fuel+1)
          ⟨idx :: rest, seen, vis, ed, ws, bb⟩ =
          ffLoopFuel fg ctr depth height width fuel
            ⟨P.reverse ++ rest, insert idx seen ∪ P.toFinset, vis ++ [idx], e2, w2,
             bboxFold height width bb idx⟩ := by
        show ffLoopFuel fg ctr depth height width fuel
          ⟨(offsets.foldl (neighborFold fg ctr depth height width idx)
              (rest, insert idx seen, ed, ws)).1,
           (offsets.foldl (neighborFold fg ctr depth height width idx)
              (rest, insert idx seen, ed, ws)).2.1,
           vis ++ [idx],
           (offsets.foldl (neighborFold fg ctr depth height width idx)
              (rest, insert idx seen, ed, ws)).2.2.1,
           (offsets.foldl (neighborFold fg ctr depth height width idx)
              (rest, insert idx seen, ed, ws)).2.2.2,
           bboxFold height width bb idx⟩ = _
        rw [hfold]
      rw [hstep]
      have hInv2 := FFInv_step fg depth height width idx rest seen vis ed ws bb
        P e2 w2 hqnd hvnd hdisj hvseen hqseen hPnd hPmem
      apply ih _ hInv2
      show (P.reverse ++ rest).length + 2 *
        ((Finset.range (depth * height * width)) \ (insert idx seen ∪ P.toFinset)).card ≤ fuel
      simp only [List.length_cons] at hle
      have hPsub : P.toFinset ⊆ (Finset.range (depth * height * width)) \ seen := by
        intro a ha
        rw [List.mem_toFinset] at ha
        obtain ⟨hb1, hb2, _⟩ := hPmem a ha
        rw [Finset.mem_sdiff, Finset.mem_range]
        exact ⟨hb1, fun hh => hb2 (Finset.mem_insert_of_mem hh)⟩
      have hsub2 : (Finset.range (depth * height * width)) \ (insert idx seen ∪ P.toFinset) ⊆
          ((Finset.range (depth * height * width)) \ seen) \ P.toFinset := by
        intro a ha
        rw [Finset.mem_sdiff] at ha ⊢
        rw [Finset.mem_sdiff]
        obtain ⟨ha1, ha2⟩ := ha
        refine ⟨⟨ha1, fun hh => ha2 ?_⟩, fun hh => ha2 ?_⟩
        · exact Finset.mem_union_left _ (Finset.mem_insert_of_mem hh)
        · exact Finset.mem_union_right _ hh
      have hcard1 : (((Finset.range (depth * height * width)) \ seen) \ P.toFinset).card =
          ((Finset.range (depth * height * width)) \ seen).card - P.toFinset.card :=
        Finset.card_sdiff hPsub
      have hcard2 : ((Finset.range (depth * height * width)) \
          (insert idx seen ∪ P.toFinset)).card ≤
          (((Finset.range (depth * height * width)) \ seen) \ P.toFinset).card :=
        Finset.card_le_card hsub2
      have hcard3 : P.toFinset.card = P.length := List.toFinset_card_of_nodup hPnd
      have hcard4 : P.toFinset.card ≤ ((Finset.range (depth * height * width)) \ seen).card :=
        Finset.card_le_card hPsub
      have hql : (P.reverse ++ rest).length = P.length + rest.length := by simp
      omega

theorem ffLoop_queue_nil (fg : Nat → Bool) (ctr : Nat → ℚ)
    (depth height width : Nat) (st : FFState) (hInv : FFInv st) :
    (ffLoop fg ctr depth height width st).queue = [] := by
  apply ffLoopFuel_terminates fg ctr depth height width _ st hInv
  have : ((Finset.range (depth * height * width)) \ st.seen).card ≤
      depth * height * width := by
    calc ((Finset.range (depth * height * width)) \ st.seen).card
        ≤ (Finset.range (depth * height * width)).card :=
          Finset.card_le_card (Finset.sdiff_subset)
      _ = depth * height * width := Finset.card_range _
  omega

/-- Full characterization of one flood-fill call as
`compute_connected_components` launches it: from a singleton work list and
an empty visited list.  The work list drains, the visited list has no
duplicates and contains the seed, there is exactly one weight (and one
two-entry edge record) per non-seed visited voxel, the visitation set
grows by exactly the visited voxels, every visited voxel other than the
seed is a fresh in-grid foreground voxel, and the tracked bounding box is
the min/max fold over the visited list in pop order. -/
theorem ffLoop_call (fg : Nat → Bool) (ctr : Nat → ℚ)
    (depth height width : Nat) (seed : Nat) (seen0 : Finset Nat) :
    (ffLoop fg ctr depth height width
      ⟨[seed], seen0, [], [], [], (depth-1, height-1, width-1, 0, 0, 0)⟩).queue = [] ∧
    (ffLoop fg ctr depth height width
      ⟨[seed], seen0, [], [], [], (depth-1, height-1, width-1, 0, 0, 0)⟩).visited.Nodup ∧
    seed ∈ (ffLoop fg ctr depth height width
      ⟨[seed], seen0, [], [], [], (depth-1, height-1, width-1, 0, 0, 0)⟩).visited ∧
    (ffLoop fg ctr depth height width
      ⟨[seed], seen0, [], [], [], (depth-1, height-1, width-1, 0, 0, 0)⟩).weights.length + 1 =
      (ffLoop fg ctr depth height width
      ⟨[seed], seen0, [], [], [], (depth-1, height-1, width-1, 0, 0, 0)⟩).visited.length ∧
    (ffLoop fg ctr depth height width
      ⟨[seed], seen0, [], [], [], (depth-1, height-1, width-1, 0, 0, 0)⟩).edges.length =
      2 * (ffLoop fg ctr depth height width
      ⟨[seed], seen0, [], [], [], (depth-1, height-1, width-1, 0, 0, 0)⟩).weights.length ∧
    (ffLoop fg ctr depth height width
      ⟨[seed], seen0, [], [], [], (depth-1, height-1, width-1, 0, 0, 0)⟩).seen =
      seen0 ∪ (ffLoop fg ctr depth height width
      ⟨[seed], seen0, [], [], [], (depth-1, height-1, width-1, 0, 0, 0)⟩).visited.toFinset ∧
    (∀ a ∈ (ffLoop fg ctr depth height width
      ⟨[seed], seen0, [], [], [], (depth-1, height-1, width-1, 0, 0, 0)⟩).visited,
      a ∈ seen0 → a = seed) ∧
    (∀ a ∈ (ffLoop fg ctr depth height width
      ⟨[seed], seen0, [], [], [], (depth-1, height-1, width-1, 0, 0, 0)⟩).visited,
      a = seed ∨ (fg a = true ∧ a < depth * height * width ∧ a ∉ seen0)) ∧
    (ffLoop fg ctr depth height width
      ⟨[seed], seen0, [], [], [], (depth-1, height-1, width-1, 0, 0, 0)⟩).bbox =
      (ffLoop fg ctr depth height width
      ⟨[seed], seen0, [], [], [], (depth-1, height-1, width-1, 0, 0, 0)⟩).visited.foldl
        (bboxFold height width) (depth-1, height-1, width-1, 0, 0, 0) := by
  have hInv0 : FFInv ⟨[seed], seen0, [], [], [],
      ((depth-1 : Nat), (height-1 : Nat), (width-1 : Nat), (0:Nat), (0:Nat), (0:Nat))⟩ := by
    refine ⟨List.nodup_singleton seed, List.nodup_nil, ?_, ?_, Or.inr ⟨seed, rfl⟩⟩
    · intro a _ hmem
      exact absurd hmem (List.not_mem_nil a)
    · intro a hmem
      exact absurd hmem (List.not_mem_nil a)
  have hnil := ffLoop_queue_nil fg ctr depth height width _ hInv0
  obtain ⟨hInvFin, dl, hvis, hgrow, hsub, hdlseen, hdlold, hfate, hdlnew, hcount,
    hecount, hbbox⟩ := ffLoopFuel_master fg ctr depth height width
    ([seed].length + 2 * (depth * height * width))
    ⟨[seed], seen0, [], [], [], (depth-1, height-1, width-1, 0, 0, 0)⟩ hInv0
  have hffeq : ffLoop fg ctr depth height width
      ⟨[seed], seen0, [], [], [], (depth-1, height-1, width-1, 0, 0, 0)⟩ =
      ffLoopFuel fg ctr depth height width ([seed].length + 2 * (depth * height * width))
      ⟨[seed], seen0, [], [], [], (depth-1, height-1, width-1, 0, 0, 0)⟩ := rfl
  rw [hffeq] at hnil ⊢
  set fin := ffLoopFuel fg ctr depth height width
    ([seed].length + 2 * (depth * height * width))
    ⟨[seed], seen0, [], [], [], (depth-1, height-1, width-1, 0, 0, 0)⟩ with hfin
  have hvis2 : fin.visited = dl := by
    rw [hvis]
    rfl
  refine ⟨hnil, hInvFin.2.1, ?_, ?_, ?_, ?_, ?_, ?_, ?_⟩
  · rcases hfate seed (List.mem_singleton_self seed) with h1 | h1
    · rw [hvis2]; exact h1
    · rw [hnil] at h1
      exact absurd h1 (List.not_mem_nil seed)
  · dsimp only at hcount
    rw [hnil] at hcount
    simp only [List.length_nil, List.length_singleton] at hcount
    omega
  · dsimp only at hecount
    simp only [List.length_nil] at hecount
    omega
  · apply Finset.Subset.antisymm
    · intro a ha
      have := hsub ha
      rw [hnil] at this
      simp only [List.toFinset_nil, Finset.union_empty] at this
      rw [hvis2]
      exact this
    · intro a ha
      rcases Finset.mem_union.mp ha with h1 | h1
      · exact hgrow h1
      · rw [hvis2] at h1
        exact hdlseen h1
  · intro a ha hseen0
    rw [hvis2] at ha
    have := hdlold a ha hseen0
    rw [List.mem_singleton] at this
    exact this
  · intro a ha
    rw [hvis2] at ha
    rcases hdlnew a ha with h1 | h1
    · rw [List.mem_singleton] at h1
      exact Or.inl h1
    · exact Or.inr h1
  · rw [hvis2, hbbox]

theorem argsortInsert_perm (weights : List ℚ) (i : Nat) :
    ∀ l, (argsortInsert weights i l).Perm (i :: l) := by
  intro l
  induction l with
  | nil => exact List.Perm.refl _
  | cons j rest ih =>
    show (if weights.getD j 0 < weights.getD i 0 then j :: argsortInsert weights i rest
      else i :: j :: rest).Perm _
    by_cases hc : weights.getD j 0 < weights.getD i 0
    · rw [if_pos hc]
      exact (ih.cons j).trans (List.Perm.swap i j rest)
    · rw [if_neg hc]

theorem argsortInsert_sorted (weights : List ℚ) (i : Nat) :
    ∀ l, l.Pairwise (fun a b => weights.getD a 0 ≤ weights.getD b 0) →
      (argsortInsert weights i l).Pairwise
        (fun a b => weights.getD a 0 ≤ weights.getD b 0) := by
  intro l
  induction l with
  | nil =>
    intro _
    exact List.pairwise_singleton _ i
  | cons j rest ih =>
    intro hp
    obtain ⟨hj, hrest⟩ := List.pairwise_cons.mp hp
    show (if weights.getD j 0 < weights.getD i 0 then j :: argsortInsert weights i rest
      else i :: j :: rest).Pairwise _
    by_cases hc : weights.getD j 0 < weights.getD i 0
    · rw [if_pos hc]
      refine List.pairwise_cons.mpr ⟨?_, ih hrest⟩
      intro b hb
      have hbmem : b ∈ i :: rest := (argsortInsert_perm weights i rest).mem_iff.mp hb
      rcases List.mem_cons.mp hbmem with h1 | h1
      · rw [h1]
        exact le_of_lt hc
      · exact hj b h1
    · rw [if_neg hc]
      refine List.pairwise_cons.mpr ⟨?_, hp⟩
      intro b hb
      rcases List.mem_cons.mp hb with h1 | h1
      · rw [h1]
        exact not_lt.mp hc
      · exact le_trans (not_lt.mp hc) (hj b h1)

/-- The amended sort contract: the executable `argsort` meets the
`std::sort` postcondition — a permutation of all edge indices whose
weights are in non-decreasing order. -/
theorem argsort_post (weights : List ℚ) : SortedIndexPost weights (argsort weights) := by
  have hgen : ∀ l : List Nat, ((l.foldr (argsortInsert weights) []).Perm l) ∧
      (l.foldr (argsortInsert weights) []).Pairwise
        (fun a b => weights.getD a 0 ≤ weights.getD b 0) := by
    intro l
    induction l with
    | nil => exact ⟨List.Perm.refl _, List.Pairwise.nil⟩
    | cons a t ih =>
      refine ⟨?_, ?_⟩
      · exact (argsortInsert_perm weights a _).trans (ih.1.cons a)
      · exact argsortInsert_sorted weights a _ ih.2
  exact ⟨(hgen (List.range weights.length)).1, (hgen (List.range weights.length)).2⟩

/-- The merge loop of `hierarchical_watershed`: it appends some list of
segments and counts exactly how many it appended; every appended segment
has a strictly in-bounds pixel count (the pixel count read by the size
gate equals the materialized component's size); and if no edge weight in
the processed order exceeds the frontier, nothing is appended. -/
theorem hwLoop_spec (edges : List Nat) (weights : List ℚ)
    (mnp mxp : Int) (mf : ℚ) (depth height width : Nat) :
    ∀ (order : List Nat) (uf : UnionFind) (segments : List Segment) (cnt : Nat),
      uf.Inv →
      ∃ new : List Segment,
        hwLoop edges weights mnp mxp mf depth height width order uf segments cnt =
          (segments ++ new, cnt + new.length) ∧
        (∀ s ∈ new, mnp < (s.num_pixels : Int) ∧ (s.num_pixels : Int) < mxp) ∧
        ((∀ i ∈ order, ¬ mf < weights.getD i 0) → new = []) := by
  intro order
  induction order with
  | nil =>
    intro uf segments cnt _
    refine ⟨[], ?_, by simp, fun _ => rfl⟩
    show (segments, cnt) = (segments ++ [], cnt + ([] : List Segment).length)
    simp
  | cons idx rest ih =>
    intro uf segments cnt hInv
    have hInv1 : ((uf.unite (edges.getD (idx * 2) 0) (edges.getD (idx * 2 + 1) 0)).2).Inv :=
      unite_Inv uf hInv _ _
    have hunf : hwLoop edges weights mnp mxp mf depth height width (idx :: rest)
        uf segments cnt =
        (if (uf.unite (edges.getD (idx * 2) 0) (edges.getD (idx * 2 + 1) 0)).1 = true ∧
            weights.getD idx 0 > mf then
          (if mnp < ((((uf.unite (edges.getD (idx * 2) 0) (edges.getD (idx * 2 + 1) 0)).2.get_size
              (edges.getD (idx * 2) 0)).1 : Int)) ∧
              ((((uf.unite (edges.getD (idx * 2) 0) (edges.getD (idx * 2 + 1) 0)).2.get_size
              (edges.getD (idx * 2) 0)).1 : Int)) < mxp then
            hwLoop edges weights mnp mxp mf depth height width rest
              (((uf.unite (edges.getD (idx * 2) 0)
                  (edges.getD (idx * 2 + 1) 0)).2.get_size (edges.getD (idx * 2) 0)).2.get_component
                  (edges.getD (idx * 2) 0)).2
              (segments ++ [Segment.from_visited
                (((uf.unite (edges.getD (idx * 2) 0)
                  (edges.getD (idx * 2 + 1) 0)).2.get_size (edges.getD (idx * 2) 0)).2.get_component
                  (edges.getD (idx * 2) 0)).1 depth height width])
              (cnt + 1)
          else
            hwLoop edges weights mnp mxp mf depth height width rest
              ((uf.unite (edges.getD (idx * 2) 0)
                (edges.getD (idx * 2 + 1) 0)).2.get_size (edges.getD (idx * 2) 0)).2
              segments cnt)
        else
          hwLoop edges weights mnp mxp mf depth height width rest
            (uf.unite (edges.getD (idx * 2) 0) (edges.getD (idx * 2 + 1) 0)).2
            segments cnt) := rfl
    rw [hunf]
    by_cases h1 : (uf.unite (edges.getD (idx * 2) 0) (edges.getD (idx * 2 + 1) 0)).1 = true ∧
        weights.getD idx 0 > mf
    · rw [if_pos h1]
      have hInvS : ((((uf.unite (edges.getD (idx * 2) 0)
          (edges.getD (idx * 2 + 1) 0)).2.get_size (edges.getD (idx * 2) 0)).2)).Inv :=
        (get_size_spec _ hInv1 _).1
      by_cases h2 : mnp < ((((uf.unite (edges.getD (idx * 2) 0)
          (edges.getD (idx * 2 + 1) 0)).2.get_size (edges.getD (idx * 2) 0)).1 : Int)) ∧
          ((((uf.unite (edges.getD (idx * 2) 0)
          (edges.getD (idx * 2 + 1) 0)).2.get_size (edges.getD (idx * 2) 0)).1 : Int)) < mxp
      · rw [if_pos h2]
        have hInvC : (((((uf.unite (edges.getD (idx * 2) 0)
            (edges.getD (idx * 2 + 1) 0)).2.get_size (edges.getD (idx * 2) 0)).2.get_component
            (edges.getD (idx * 2) 0)).2)).Inv :=
          (get_component_spec _ hInvS _).1
        obtain ⟨new2, hres, hbnd, hfr⟩ := ih _ _ _ hInvC
        have hnum : (Segment.from_visited
            (((uf.unite (edges.getD (idx * 2) 0)
              (edges.getD (idx * 2 + 1) 0)).2.get_size (edges.getD (idx * 2) 0)).2.get_component
              (edges.getD (idx * 2) 0)).1 depth height width).num_pixels =
            ((uf.unite (edges.getD (idx * 2) 0)
              (edges.getD (idx * 2 + 1) 0)).2.get_size (edges.getD (idx * 2) 0)).1 := by
          show (((uf.unite (edges.getD (idx * 2) 0)
              (edges.getD (idx * 2 + 1) 0)).2.get_size (edges.getD (idx * 2) 0)).2.get_component
              (edges.getD (idx * 2) 0)).1.length = _
          exact comp_length_after_size _ hInv1 _
        refine ⟨Segment.from_visited
            (((uf.unite (edges.getD (idx * 2) 0)
              (edges.getD (idx * 2 + 1) 0)).2.get_size (edges.getD (idx * 2) 0)).2.get_component
              (edges.getD (idx * 2) 0)).1 depth height width :: new2, ?_, ?_, ?_⟩
        · rw [hres, List.append_assoc, List.singleton_append, List.length_cons,
            Nat.add_assoc, Nat.add_comm 1 new2.length]
        · intro s hs
          rcases List.mem_cons.mp hs with hh | hh
          · rw [hh, hnum]
            exact h2
          · exact hbnd s hh
        · intro hall
          exact absurd h1.2 (hall idx (List.mem_cons_self idx rest))
      · rw [if_neg h2]
        obtain ⟨new2, hres, hbnd, hfr⟩ := ih _ _ _ hInvS
        refine ⟨new2, hres, hbnd, ?_⟩
        intro hall
        exact absurd h1.2 (hall idx (List.mem_cons_self idx rest))
    · rw [if_neg h1]
      obtain ⟨new2, hres, hbnd, hfr⟩ := ih _ _ _ hInv1
      refine ⟨new2, hres, hbnd, ?_⟩
      intro hall
      exact hfr (fun i hi => hall i (List.mem_cons_of_mem idx hi))

/-- The sorting pass plus the merge loop: the watershed returns the input
segments extended by some new list whose length is the returned count;
each new segment passes the strict size gate; and if no weight exceeds
the frontier threshold nothing new is emitted. -/
theorem hierarchical_watershed_spec (segments : List Segment) (visited : List Nat)
    (edges : List Nat) (weights : List ℚ) (mnp mxp : Int) (mf : ℚ)
    (depth height width : Nat) :
    ∃ new : List Segment,
      hierarchical_watershed segments visited edges weights mnp mxp mf depth height width =
        (segments ++ new, new.length) ∧
      (∀ s ∈ new, mnp < (s.num_pixels : Int) ∧ (s.num_pixels : Int) < mxp) ∧
      ((∀ q ∈ weights, q ≤ mf) → new = []) := by
  obtain ⟨new, hres, hbnd, hfr⟩ := hwLoop_spec edges weights mnp mxp mf depth height width
    (argsort weights) (UnionFind.ofList visited) segments 0 (Inv_ofList visited)
  refine ⟨new, ?_, hbnd, ?_⟩
  · show hwLoop edges weights mnp mxp mf depth height width
      (argsort weights) (UnionFind.ofList visited) segments 0 = _
    rw [hres, Nat.zero_add]
  · intro hall
    apply hfr
    intro i hi
    have hmem : i ∈ List.range weights.length := ((argsort_post weights).1.mem_iff).mp hi
    have hlt : i < weights.length := List.mem_range.mp hmem
    have hget : weights.getD i 0 ∈ weights := by
      rw [List.getD_eq_getElem weights 0 hlt]
      exact List.getElem_mem hlt
    exact not_lt.mpr (hall _ hget)

/-- With inverted size bounds no merge can pass the strict gate, so the
watershed emits nothing at all. -/
theorem hierarchical_watershed_degenerate (segments : List Segment) (visited : List Nat)
    (edges : List Nat) (weights : List ℚ) (mnp mxp : Int) (mf : ℚ)
    (depth height width : Nat) (hge : mxp ≤ mnp) :
    hierarchical_watershed segments visited edges weights mnp mxp mf depth height width =
      (segments, 0) := by
  obtain ⟨new, hres, hbnd, _⟩ := hierarchical_watershed_spec segments visited edges weights
    mnp mxp mf depth height width
  cases new with
  | nil => simpa using hres
  | cons s t =>
    obtain ⟨h1, h2⟩ := hbnd s (List.mem_cons_self s t)
    exact absurd (lt_trans h1 h2) (not_lt.mpr hge)

theorem ccc_unfold (fg : Nat → Bool) (ctr : Nat → ℚ) (depth height width : Nat)
    (mnp mxp : Int) (mf : ℚ) (seen : Finset Nat) (segments : List Segment)
    (cur_idx : Nat) :
    compute_connected_components fg ctr depth height width mnp mxp mf seen segments cur_idx =
      (if (hierarchical_watershed segments (ffRun fg ctr depth height width seen cur_idx).visited
            (ffRun fg ctr depth height width seen cur_idx).edges
            (ffRun fg ctr depth height width seen cur_idx).weights
            mnp mxp mf depth height width).2 = 0 then
        ((hierarchical_watershed segments (ffRun fg ctr depth height width seen cur_idx).visited
            (ffRun fg ctr depth height width seen cur_idx).edges
            (ffRun fg ctr depth height width seen cur_idx).weights
            mnp mxp mf depth height width).1 ++
          [fallbackSeg (ffRun fg ctr depth height width seen cur_idx) depth height width],
         (ffRun fg ctr depth height width seen cur_idx).seen,
         (ffRun fg ctr depth height width seen cur_idx).visited)
      else
        ((hierarchical_watershed segments (ffRun fg ctr depth height width seen cur_idx).visited
            (ffRun fg ctr depth height width seen cur_idx).edges
            (ffRun fg ctr depth height width seen cur_idx).weights
            mnp mxp mf depth height width).1,
         (ffRun fg ctr depth height width seen cur_idx).seen,
         (ffRun fg ctr depth height width seen cur_idx).visited)) := rfl

/-- Every component call emits at least one segment: either every emitted
segment passed the strict size gate, or nothing qualified and exactly the
single whole-component fallback was appended. -/
theorem ccc_emits (fg : Nat → Bool) (ctr : Nat → ℚ) (depth height width : Nat)
    (mnp mxp : Int) (mf : ℚ) (seen : Finset Nat) (segments : List Segment)
    (cur_idx : Nat) :
    ∃ new : List Segment,
      (compute_connected_components fg ctr depth height width mnp mxp mf seen
        segments cur_idx).1 = segments ++ new ∧
      new ≠ [] ∧
      ((∀ s ∈ new, mnp < (s.num_pixels : Int) ∧ (s.num_pixels : Int) < mxp) ∨
        new = [fallbackSeg (ffRun fg ctr depth height width seen cur_idx) depth height width]) := by
  obtain ⟨hwnew, hres, hbnd, _⟩ := hierarchical_watershed_spec segments
    (ffRun fg ctr depth height width seen cur_idx).visited
    (ffRun fg ctr depth height width seen cur_idx).edges
    (ffRun fg ctr depth height width seen cur_idx).weights mnp mxp mf depth height width
  cases hwnew with
  | nil =>
    refine ⟨[fallbackSeg (ffRun fg ctr depth height width seen cur_idx) depth height width],
      ?_, by simp, Or.inr rfl⟩
    rw [ccc_unfold, hres]
    simp
  | cons s t =>
    refine ⟨s :: t, ?_, by simp, Or.inl hbnd⟩
    rw [ccc_unfold, hres]
    simp

/-- With inverted size bounds every component call returns exactly the
whole-component fallback appended to the incoming segments. -/
theorem ccc_degenerate (fg : Nat → Bool) (ctr : Nat → ℚ) (depth height width : Nat)
    (mnp mxp : Int) (mf : ℚ) (seen : Finset Nat) (segments : List Segment)
    (cur_idx : Nat) (hge : mxp ≤ mnp) :
    compute_connected_components fg ctr depth height width mnp mxp mf seen segments cur_idx =
      (segments ++ [fallbackSeg (ffRun fg ctr depth height width seen cur_idx) depth height width],
       (ffRun fg ctr depth height width seen cur_idx).seen,
       (ffRun fg ctr depth height width seen cur_idx).visited) := by
  have hdeg := hierarchical_watershed_degenerate segments
    (ffRun fg ctr depth height width seen cur_idx).visited
    (ffRun fg ctr depth height width seen cur_idx).edges
    (ffRun fg ctr depth height width seen cur_idx).weights mnp mxp mf
    depth height width hge
  rw [ccc_unfold, hdeg]
  simp

theorem ccc_outputs (fg : Nat → Bool) (ctr : Nat → ℚ) (depth height width : Nat)
    (mnp mxp : Int) (mf : ℚ) (seen : Finset Nat) (segments : List Segment)
    (cur_idx : Nat) :
    (compute_connected_components fg ctr depth height width mnp mxp mf seen
      segments cur_idx).2.1 = (ffRun fg ctr depth height width seen cur_idx).seen ∧
    (compute_connected_components fg ctr depth height width mnp mxp mf seen
      segments cur_idx).2.2 = (ffRun fg ctr depth height width seen cur_idx).visited := by
  rw [ccc_unfold]
  by_cases hz : (hierarchical_watershed segments
      (ffRun fg ctr depth height width seen cur_idx).visited
      (ffRun fg ctr depth height width seen cur_idx).edges
      (ffRun fg ctr depth height width seen cur_idx).weights
      mnp mxp mf depth height width).2 = 0
  · rw [if_pos hz]
    exact ⟨rfl, rfl⟩
  · rw [if_neg hz]
    exact ⟨rfl, rfl⟩

/-- `ffLoop_call` restated through `ffRun`. -/
theorem ffRun_call (fg : Nat → Bool) (ctr : Nat → ℚ) (depth height width : Nat)
    (seed : Nat) (seen0 : Finset Nat) :
    (ffRun fg ctr depth height width seen0 seed).queue = [] ∧
    (ffRun fg ctr depth height width seen0 seed).visited.Nodup ∧
    seed ∈ (ffRun fg ctr depth height width seen0 seed).visited ∧
    (ffRun fg ctr depth height width seen0 seed).weights.length + 1 =
      (ffRun fg ctr depth height width seen0 seed).visited.length ∧
    (ffRun fg ctr depth height width seen0 seed).edges.length =
      2 * (ffRun fg ctr depth height width seen0 seed).weights.length ∧
    (ffRun fg ctr depth height width seen0 seed).seen =
      seen0 ∪ (ffRun fg ctr depth height width seen0 seed).visited.toFinset ∧
    (∀ a ∈ (ffRun fg ctr depth height width seen0 seed).visited,
      a ∈ seen0 → a = seed) ∧
    (∀ a ∈ (ffRun fg ctr depth height width seen0 seed).visited,
      a = seed ∨ (fg a = true ∧ a < depth * height * width ∧ a ∉ seen0)) ∧
    (ffRun fg ctr depth height width seen0 seed).bbox =
      (ffRun fg ctr depth height width seen0 seed).visited.foldl
        (bboxFold height width) (depth - 1, height - 1, width - 1, 0, 0, 0) :=
  ffLoop_call fg ctr depth height width seed seen0

theorem seenOf_acc (vs : List (List Nat)) : ∀ A : Finset Nat,
    vs.foldr (fun l acc => l.toFinset ∪ acc) A = seenOf vs ∪ A := by
  induction vs with
  | nil =>
    intro A
    show A = ∅ ∪ A
    rw [Finset.empty_union]
  | cons v t ih =>
    intro A
    show v.toFinset ∪ t.foldr _ A = (v.toFinset ∪ t.foldr _ ∅) ∪ A
    rw [ih A, Finset.union_assoc]
    rfl

theorem seenOf_append (vs : List (List Nat)) (v : List Nat) :
    seenOf (vs ++ [v]) = seenOf vs ∪ v.toFinset := by
  show (vs ++ [v]).foldr _ ∅ = _
  rw [List.foldr_append]
  show vs.foldr _ (v.toFinset ∪ ∅) = _
  rw [Finset.union_empty, seenOf_acc]

theorem mem_seenOf (vs : List (List Nat)) (a : Nat) :
    a ∈ seenOf vs ↔ ∃ l ∈ vs, a ∈ l := by
  induction vs with
  | nil => simp [seenOf]
  | cons v t ih =>
    show a ∈ v.toFinset ∪ seenOf t ↔ _
    rw [Finset.mem_union, ih]
    simp

theorem scanStep_inv (fg : Nat → Bool) (ctr : Nat → ℚ) (depth height width : Nat)
    (mnp mxp : Int) (mf : ℚ) (k : Nat) (st : ScanState)
    (hk : k < depth * height * width)
    (hInv : ScanInv fg (depth * height * width) k st) :
    ScanInv fg (depth * height * width) (k + 1)
      (scanStep fg ctr depth height width mnp mxp mf st k) := by
  obtain ⟨hseenEq, hpw, hlists, hcov⟩ := hInv
  by_cases hg : fg k = true ∧ k ∉ st.seen
  · have hstep : scanStep fg ctr depth height width mnp mxp mf st k =
        ⟨(compute_connected_components fg ctr depth height width mnp mxp mf st.seen
            st.segments k).1,
         (compute_connected_components fg ctr depth height width mnp mxp mf st.seen
            st.segments k).2.1,
         st.visiteds ++ [(compute_connected_components fg ctr depth height width mnp mxp mf
            st.seen st.segments k).2.2]⟩ := by
      show (if fg k = true ∧ k ∉ st.seen then _ else _) = _
      rw [if_pos hg]
    rw [hstep]
    obtain ⟨hos, hov⟩ := ccc_outputs fg ctr depth height width mnp mxp mf st.seen
      st.segments k
    obtain ⟨_, hnd, hseed, _, _, hsgrow, hold, hnew, _⟩ :=
      ffRun_call fg ctr depth height width k st.seen
    refine ⟨?_, ?_, ?_, ?_⟩
    · show (compute_connected_components fg ctr depth height width mnp mxp mf st.seen
          st.segments k).2.1 = seenOf (st.visiteds ++ [_])
      rw [hos, hov, seenOf_append, hsgrow, hseenEq]
    · show (st.visiteds ++ [_]).Pairwise _
      rw [List.pairwise_append]
      refine ⟨hpw, List.pairwise_singleton _ _, ?_⟩
      intro l1 hl1 l2 hl2 a ha hamem
      rw [List.mem_singleton] at hl2
      rw [hl2, hov] at hamem
      have haseen : a ∈ st.seen := by
        rw [hseenEq]
        exact (mem_seenOf st.visiteds a).mpr ⟨l1, hl1, ha⟩
      have hak : a = k := hold a hamem haseen
      rw [hak] at haseen
      exact hg.2 haseen
    · intro l hl
      rcases List.mem_append.mp hl with h1 | h1
      · exact hlists l h1
      · rw [List.mem_singleton] at h1
        rw [h1, hov]
        refine ⟨?_, hnd, ?_⟩
        · intro hnil
          rw [hnil] at hseed
          exact absurd hseed (List.not_mem_nil k)
        · intro a ha
          rcases hnew a ha with h2 | h2
          · rw [h2]
            exact ⟨hg.1, hk⟩
          · exact ⟨h2.1, h2.2.1⟩
    · intro i hi hfi
      show i ∈ (compute_connected_components fg ctr depth height width mnp mxp mf st.seen
          st.segments k).2.1
      rw [hos, hsgrow]
      rcases Nat.lt_succ_iff_lt_or_eq.mp hi with h1 | h1
      · exact Finset.mem_union_left _ (hcov i h1 hfi)
      · apply Finset.mem_union_right
        rw [List.mem_toFinset, h1]
        exact hseed
  · have hstep : scanStep fg ctr depth height width mnp mxp mf st k = st := by
      show (if fg k = true ∧ k ∉ st.seen then _ else _) = _
      rw [if_neg hg]
    rw [hstep]
    refine ⟨hseenEq, hpw, hlists, ?_⟩
    intro i hi hfi
    rcases Nat.lt_succ_iff_lt_or_eq.mp hi with h1 | h1
    · exact hcov i h1 hfi
    · subst h1
      by_cases hs : i ∈ st.seen
      · exact hs
      · exact absurd ⟨hfi, hs⟩ hg

theorem scanRange_inv (fg : Nat → Bool) (ctr : Nat → ℚ) (depth height width : Nat)
    (mnp mxp : Int) (mf : ℚ) :
    ∀ n, n ≤ depth * height * width →
      ScanInv fg (depth * height * width) n
        ((List.range n).foldl (scanStep fg ctr depth height width mnp mxp mf)
          ⟨[], ∅, []⟩) := by
  intro n
  induction n with
  | zero =>
    intro _
    exact ⟨rfl, List.Pairwise.nil, fun l hl => absurd hl (List.not_mem_nil l),
      fun i hi _ => absurd hi (by omega)⟩
  | succ m ih =>
    intro hm
    rw [List.range_succ, List.foldl_append]
    exact scanStep_inv fg ctr depth height width mnp mxp mf m _ (by omega) (ih (by omega))

theorem scanStep_seen_mono (fg : Nat → Bool) (ctr : Nat → ℚ) (depth height width : Nat)
    (mnp mxp : Int) (mf : ℚ) (st : ScanState) (k : Nat) :
    st.seen ⊆ (scanStep fg ctr depth height width mnp mxp mf st k).seen := by
  by_cases hg : fg k = true ∧ k ∉ st.seen
  · have hstep : scanStep fg ctr depth height width mnp mxp mf st k =
        ⟨(compute_connected_components fg ctr depth height width mnp mxp mf st.seen
            st.segments k).1,
         (compute_connected_components fg ctr depth height width mnp mxp mf st.seen
            st.segments k).2.1,
         st.visiteds ++ [(compute_connected_components fg ctr depth height width mnp mxp mf
            st.seen st.segments k).2.2]⟩ := by
      show (if fg k = true ∧ k ∉ st.seen then _ else _) = _
      rw [if_pos hg]
    rw [hstep]
    show st.seen ⊆ (compute_connected_components fg ctr depth height width mnp mxp mf st.seen
      st.segments k).2.1
    rw [(ccc_outputs fg ctr depth height width mnp mxp mf st.seen st.segments k).1,
      (ffRun_call fg ctr depth height width k st.seen).2.2.2.2.2.1]
    exact Finset.subset_union_left
  · have hstep : scanStep fg ctr depth height width mnp mxp mf st k = st := by
      show (if fg k = true ∧ k ∉ st.seen then _ else _) = _
      rw [if_neg hg]
    rw [hstep]

theorem scan_foldl_seen_mono (fg : Nat → Bool) (ctr : Nat → ℚ) (depth height width : Nat)
    (mnp mxp : Int) (mf : ℚ) :
    ∀ (l : List Nat) (st : ScanState),
      st.seen ⊆ (l.foldl (scanStep fg ctr depth height width mnp mxp mf) st).seen := by
  intro l
  induction l with
  | nil => intro st; exact Finset.Subset.refl _
  | cons a t ih =>
    intro st
    exact Finset.Subset.trans (scanStep_seen_mono fg ctr depth height width mnp mxp mf st a)
      (ih (scanStep fg ctr depth height width mnp mxp mf st a))

/-- Marked-set monotonicity across the scan: processing more indices never
unmarks a voxel. -/
theorem scan_prefix_mono (fg : Nat → Bool) (ctr : Nat → ℚ) (depth height width : Nat)
    (mnp mxp : Int) (mf : ℚ) (init : ScanState) (l1 l2 : List Nat) :
    (l1.foldl (scanStep fg ctr depth height width mnp mxp mf) init).seen ⊆
      ((l1 ++ l2).foldl (scanStep fg ctr depth height width mnp mxp mf) init).seen := by
  rw [List.foldl_append]
  exact scan_foldl_seen_mono fg ctr depth height width mnp mxp mf l2 _

/-- The full-scan partition: every in-grid foreground voxel lies in some
per-call visited list, the visited lists are pairwise disjoint, each is a
non-empty duplicate-free list of in-grid foreground voxels, and the final
marked set is exactly their union. -/
theorem scanAll_partition (fg : Nat → Bool) (ctr : Nat → ℚ) (depth height width : Nat)
    (mnp mxp : Int) (mf : ℚ) :
    (∀ i, i < depth * height * width → fg i = true →
      ∃ l ∈ (scanAll fg ctr depth height width mnp mxp mf).visiteds, i ∈ l) ∧
    (scanAll fg ctr depth height width mnp mxp mf).visiteds.Pairwise
      (fun l1 l2 => ∀ a ∈ l1, a ∉ l2) ∧
    (∀ l ∈ (scanAll fg ctr depth height width mnp mxp mf).visiteds,
      l ≠ [] ∧ l.Nodup ∧ ∀ a ∈ l, fg a = true ∧ a < depth * height * width) ∧
    (scanAll fg ctr depth height width mnp mxp mf).seen =
      seenOf (scanAll fg ctr depth height width mnp mxp mf).visiteds := by
  obtain ⟨h1, h2, h3, h4⟩ := scanRange_inv fg ctr depth height width mnp mxp mf
    (depth * height * width) (Nat.le_refl _)
  refine ⟨?_, h2, h3, h1⟩
  intro i hi hfi
  have hm := h4 i hi hfi
  rw [h1] at hm
  exact (mem_seenOf _ i).mp hm

/-! ## Mask population counting (`Segment::from_visited_and_bbox`). -/
theorem decode_encode (H W z y x : Nat) (hy : y < H) (hx : x < W) :
    decodeZ H W (z * (H * W) + y * W + x) = z ∧
    decodeY H W (z * (H * W) + y * W + x) = y ∧
    decodeX W (z * (H * W) + y * W + x) = x := by
  have hW : 0 < W := by omega
  have hHW : 0 < H * W := Nat.mul_pos (by omega) hW
  have hr : y * W + x < H * W := by
    calc y * W + x < y * W + W := by omega
      _ = (y + 1) * W := by ring
      _ ≤ H * W := Nat.mul_le_mul_right W hy
  have h1 : z * (H * W) + y * W + x = H * W * z + (y * W + x) := by ring
  refine ⟨?_, ?_, ?_⟩
  · show (z * (H * W) + y * W + x) / (H * W) = z
    rw [h1, Nat.mul_add_div hHW, Nat.div_eq_of_lt hr]
    omega
  · show ((z * (H * W) + y * W + x) % (H * W)) / W = y
    rw [h1, Nat.mul_add_mod, Nat.mod_eq_of_lt hr]
    have h2 : y * W + x = W * y + x := by ring
    rw [h2, Nat.mul_add_div hW, Nat.div_eq_of_lt hx]
    omega
  · show (z * (H * W) + y * W + x) % W = x
    have h3 : z * (H * W) + y * W + x = x + (z * H + y) * W := by ring
    rw [h3, Nat.add_mul_mod_self_right, Nat.mod_eq_of_lt hx]

theorem maskPos_encode (mh mw a b c : Nat) :
    maskPos mh mw a b c = a * (mh * mw) + b * mw + c := by
  show a * mh * mw + b * mw + c = _
  ring

theorem maskPos_inj (mh mw a b c a2 b2 c2 : Nat) (hb : b < mh) (hc : c < mw)
    (hb2 : b2 < mh) (hc2 : c2 < mw)
    (h : maskPos mh mw a b c = maskPos mh mw a2 b2 c2) :
    a = a2 ∧ b = b2 ∧ c = c2 := by
  rw [maskPos_encode, maskPos_encode] at h
  obtain ⟨d1, d2, d3⟩ := decode_encode mh mw a b c hb hc
  obtain ⟨e1, e2, e3⟩ := decode_encode mh mw a2 b2 c2 hb2 hc2
  refine ⟨?_, ?_, ?_⟩
  · rw [← d1, ← e1, h]
  · rw [← d2, ← e2, h]
  · rw [← d3, ← e3, h]

theorem maskPos_lt (md mh mw a b c : Nat) (ha : a < md) (hb : b < mh) (hc : c < mw) :
    maskPos mh mw a b c < md * mh * mw := by
  rw [maskPos_encode]
  have h2 : md * mh * mw = md * (mh * mw) := by ring
  rw [h2]
  have := encode_lt md mh mw a b c ha hb hc
  have h3 : md * mh * mw = md * (mh * mw) := by ring
  omega

theorem getD_set_ne_any {α : Type} (l : List α) (i : Nat) (v d : α) (j : Nat) (h : i ≠ j) :
    (l.set i v).getD j d = l.getD j d := by
  induction l generalizing i j with
  | nil => simp [List.set]
  | cons a t ih =>
    cases i with
    | zero =>
      cases j with
      | zero => exact absurd rfl h
      | succ j2 => simp [List.set, List.getD]
    | succ i2 =>
      cases j with
      | zero => simp [List.set, List.getD]
      | succ j2 =>
        simp only [List.set, List.getD_cons_succ]
        exact ih i2 j2 (by omega)

theorem count_set_true (m : List Bool) : ∀ p, p < m.length → m.getD p true = false →
    (m.set p true).count true = m.count true + 1 := by
  induction m with
  | nil =>
    intro p hp _
    simp at hp
  | cons b t ih =>
    intro p hp hf
    cases p with
    | zero =>
      simp only [List.getD_cons_zero] at hf
      subst hf
      simp [List.count_cons]
    | succ q =>
      simp only [List.getD_cons_succ] at hf
      simp only [List.length_cons] at hp
      show ((b :: t.set q true).count true) = _
      cases b with
      | false => simpa [List.count_cons] using ih q (by omega) hf
      | true => simpa [List.count_cons] using ih q (by omega) hf

theorem count_fold_set (ps : List Nat) : ∀ (m : List Bool), ps.Nodup →
    (∀ p ∈ ps, p < m.length ∧ m.getD p true = false) →
    ((ps.foldl (fun mm p => mm.set p true) m).count true = m.count true + ps.length ∧
     (ps.foldl (fun mm p => mm.set p true) m).length = m.length) := by
  induction ps with
  | nil =>
    intro m _ _
    exact ⟨rfl, rfl⟩
  | cons p rest ih =>
    intro m hnd hps
    obtain ⟨hp1, hp2⟩ := hps p (List.mem_cons_self p rest)
    have hnd2 := List.nodup_cons.mp hnd
    have hrest : ∀ q ∈ rest, q < (m.set p true).length ∧ (m.set p true).getD q true = false := by
      intro q hq
      have hne : p ≠ q := fun he => hnd2.1 (he ▸ hq)
      refine ⟨?_, ?_⟩
      · rw [List.length_set]
        exact (hps q (List.mem_cons_of_mem p hq)).1
      · rw [getD_set_ne_any m p true true q hne]
        exact (hps q (List.mem_cons_of_mem p hq)).2
    obtain ⟨hc, hl⟩ := ih (m.set p true) hnd2.2 hrest
    constructor
    · show (rest.foldl (fun mm q => mm.set q true) (m.set p true)).count true = _
      rw [hc, count_set_true m p hp1 hp2, List.length_cons]
      omega
    · show (rest.foldl (fun mm q => mm.set q true) (m.set p true)).length = _
      rw [hl, List.length_set]

theorem getD_replicate_lt (n p : Nat) (h : p < n) :
    (List.replicate n false).getD p true = false := by
  rw [List.getD_eq_getElem _ _ (by simpa using h)]
  simp

theorem count_replicate_false (n : Nat) : (List.replicate n false).count true = 0 := by
  induction n with
  | zero => rfl
  | succ m ih => simpa [List.replicate_succ, List.count_cons] using ih

/-- Population count of the materialized mask: with a duplicate-free voxel
list whose decoded coordinates lie inside the given bounding box, the mask
holds exactly `num_pixels` true entries, and its flat length is the
product of the per-axis extents `max − min + 1`. -/
theorem from_visited_and_bbox_spec (visited : List Nat)
    (min_z min_y min_x max_z max_y max_x depth height width : Nat)
    (hnd : visited.Nodup)
    (hin : ∀ idx ∈ visited,
      min_z ≤ decodeZ height width idx ∧ decodeZ height width idx ≤ max_z ∧
      min_y ≤ decodeY height width idx ∧ decodeY height width idx ≤ max_y ∧
      min_x ≤ decodeX width idx ∧ decodeX width idx ≤ max_x) :
    (Segment.from_visited_and_bbox visited min_z min_y min_x max_z max_y max_x
      depth height width).mask.count true =
      (Segment.from_visited_and_bbox visited min_z min_y min_x max_z max_y max_x
        depth height width).num_pixels ∧
    (Segment.from_visited_and_bbox visited min_z min_y min_x max_z max_y max_x
      depth height width).mask.length =
      (max_z - min_z + 1) * (max_y - min_y + 1) * (max_x - min_x + 1) := by
  have hmask : (Segment.from_visited_and_bbox visited min_z min_y min_x max_z max_y max_x
      depth height width).mask =
      (visited.map (fun idx => maskPos (max_y - min_y + 1) (max_x - min_x + 1)
        (decodeZ height width idx - min_z) (decodeY height width idx - min_y)
        (decodeX width idx - min_x))).foldl (fun m p => m.set p true)
      (List.replicate ((max_z - min_z + 1) * (max_y - min_y + 1) * (max_x - min_x + 1))
        false) := by
    rw [List.foldl_map]
    rfl
  have hPnd : (visited.map (fun idx => maskPos (max_y - min_y + 1) (max_x - min_x + 1)
      (decodeZ height width idx - min_z) (decodeY height width idx - min_y)
      (decodeX width idx - min_x))).Nodup := by
    refine List.Nodup.map_on ?_ hnd
    intro a ha b hb hab
    obtain ⟨z1a, z2a, y1a, y2a, x1a, x2a⟩ := hin a ha
    obtain ⟨z1b, z2b, y1b, y2b, x1b, x2b⟩ := hin b hb
    obtain ⟨e1, e2, e3⟩ := maskPos_inj (max_y - min_y + 1) (max_x - min_x + 1)
      (decodeZ height width a - min_z) (decodeY height width a - min_y)
      (decodeX width a - min_x)
      (decodeZ height width b - min_z) (decodeY height width b - min_y)
      (decodeX width b - min_x)
      (by omega) (by omega) (by omega) (by omega) hab
    exact decode_inj height width a b (by omega) (by omega) (by omega)
  have hbounds : ∀ p ∈ visited.map (fun idx => maskPos (max_y - min_y + 1)
      (max_x - min_x + 1) (decodeZ height width idx - min_z)
      (decodeY height width idx - min_y) (decodeX width idx - min_x)),
      p < (List.replicate ((max_z - min_z + 1) * (max_y - min_y + 1) * (max_x - min_x + 1))
        false).length ∧
      (List.replicate ((max_z - min_z + 1) * (max_y - min_y + 1) * (max_x - min_x + 1))
        false).getD p true = false := by
    intro p hp
    obtain ⟨idx, hidx, hpe⟩ := List.mem_map.mp hp
    obtain ⟨z1, z2, y1, y2, x1, x2⟩ := hin idx hidx
    have hlt : p < (max_z - min_z + 1) * (max_y - min_y + 1) * (max_x - min_x + 1) := by
      rw [← hpe]
      exact maskPos_lt (max_z - min_z + 1) (max_y - min_y + 1) (max_x - min_x + 1)
        _ _ _ (by omega) (by omega) (by omega)
    exact ⟨by simpa using hlt, getD_replicate_lt _ p hlt⟩
  obtain ⟨hc, hl⟩ := count_fold_set
    (visited.map (fun idx => maskPos (max_y - min_y + 1) (max_x - min_x + 1)
      (decodeZ height width idx - min_z) (decodeY height width idx - min_y)
      (decodeX width idx - min_x)))
    (List.replicate ((max_z - min_z + 1) * (max_y - min_y + 1) * (max_x - min_x + 1)) false)
    hPnd hbounds
  constructor
  · rw [hmask, hc, count_replicate_false, List.length_map, Nat.zero_add]
    rfl
  · rw [hmask, hl]
    simp

/-- Recomputing the bounding box from a list agrees with a tracked box
that satisfies the fold equation. -/
theorem from_visited_eq_tracked (st : FFState) (depth height width : Nat)
    (hbbox : st.bbox = st.visited.foldl (bboxFold height width)
      (depth - 1, height - 1, width - 1, 0, 0, 0)) :
    Segment.from_visited st.visited depth height width =
      fallbackSeg st depth height width := by
  show Segment.from_visited_and_bbox st.visited
      (st.visited.foldl (bboxFold height width) (depth - 1, height - 1, width - 1, 0, 0, 0)).1
      (st.visited.foldl (bboxFold height width) (depth - 1, height - 1, width - 1, 0, 0, 0)).2.1
      (st.visited.foldl (bboxFold height width) (depth - 1, height - 1, width - 1, 0, 0, 0)).2.2.1
      (st.visited.foldl (bboxFold height width) (depth - 1, height - 1, width - 1, 0, 0, 0)).2.2.2.1
      (st.visited.foldl (bboxFold height width) (depth - 1, height - 1, width - 1, 0, 0, 0)).2.2.2.2.1
      (st.visited.foldl (bboxFold height width) (depth - 1, height - 1, width - 1, 0, 0, 0)).2.2.2.2.2
      depth height width =
    Segment.from_visited_and_bbox st.visited st.bbox.1 st.bbox.2.1 st.bbox.2.2.1
      st.bbox.2.2.2.1 st.bbox.2.2.2.2.1 st.bbox.2.2.2.2.2 depth height width
  rw [hbbox]

/-! ## Claim theorems -/
/-- C1: for every foreground mask, the per-component visited lists of the
flood-fill calls partition the in-grid foreground voxels — every in-grid
foreground voxel lies in some call's visited list, no two calls' lists
share a voxel, every listed voxel is an in-grid foreground voxel, the
final visitation set is exactly the union of the lists, and the
visitation set only ever grows as further indices are scanned (each
voxel's flag goes false→true at most once and is never cleared). -/
theorem claim_C1_partition (fg : Nat → Bool) (ctr : Nat → ℚ)
    (depth height width : Nat) (mnp mxp : Int) (mf : ℚ) :
    (∀ i, i < depth * height * width → fg i = true →
      ∃ l ∈ (scanAll fg ctr depth height width mnp mxp mf).visiteds, i ∈ l) ∧
    (scanAll fg ctr depth height width mnp mxp mf).visiteds.Pairwise
      (fun l1 l2 => ∀ a ∈ l1, a ∉ l2) ∧
    (∀ l ∈ (scanAll fg ctr depth height width mnp mxp mf).visiteds,
      l.Nodup ∧ ∀ a ∈ l, fg a = true ∧ a < depth * height * width) ∧
    (scanAll fg ctr depth height width mnp mxp mf).seen =
      seenOf (scanAll fg ctr depth height width mnp mxp mf).visiteds ∧
    (∀ l1 l2 : List Nat,
      (l1.foldl (scanStep fg ctr depth height width mnp mxp mf) ⟨[], ∅, []⟩).seen ⊆
        ((l1 ++ l2).foldl (scanStep fg ctr depth height width mnp mxp mf)
          ⟨[], ∅, []⟩).seen) := by
  obtain ⟨h1, h2, h3, h4⟩ := scanAll_partition fg ctr depth height width mnp mxp mf
  refine ⟨h1, h2, ?_, h4, ?_⟩
  · intro l hl
    exact ⟨(h3 l hl).2.1, (h3 l hl).2.2⟩
  · intro l1 l2
    exact scan_prefix_mono fg ctr depth height width mnp mxp mf ⟨[], ∅, []⟩ l1 l2

/-- C2: every component call appends at least one segment to the output:
some non-empty list of new segments is appended, and whenever the merge
loop's emitted count is zero the appended list is exactly the single
whole-component fallback built from the call's entire visited list and
tracked bounding box. -/
theorem claim_C2_fallback (fg : Nat → Bool) (ctr : Nat → ℚ) (depth height width : Nat)
    (mnp mxp : Int) (mf : ℚ) (seen : Finset Nat) (segments : List Segment)
    (cur_idx : Nat) :
    ∃ new : List Segment,
      (compute_connected_components fg ctr depth height width mnp mxp mf seen
        segments cur_idx).1 = segments ++ new ∧
      new ≠ [] ∧
      ((hierarchical_watershed segments
          (ffRun fg ctr depth height width seen cur_idx).visited
          (ffRun fg ctr depth height width seen cur_idx).edges
          (ffRun fg ctr depth height width seen cur_idx).weights
          mnp mxp mf depth height width).2 = 0 →
        new = [fallbackSeg (ffRun fg ctr depth height width seen cur_idx)
          depth height width]) := by
  obtain ⟨hwnew, hres, hbnd, _⟩ := hierarchical_watershed_spec segments
    (ffRun fg ctr depth height width seen cur_idx).visited
    (ffRun fg ctr depth height width seen cur_idx).edges
    (ffRun fg ctr depth height width seen cur_idx).weights mnp mxp mf depth height width
  cases hwnew with
  | nil =>
    refine ⟨[fallbackSeg (ffRun fg ctr depth height width seen cur_idx) depth height width],
      ?_, by simp, fun _ => rfl⟩
    rw [ccc_unfold, hres]
    simp
  | cons s t =>
    refine ⟨s :: t, ?_, by simp, ?_⟩
    · rw [ccc_unfold, hres]
      simp
    · intro hz
      rw [hres] at hz
      simp at hz

/-- C3: the merge loop appends exactly the counted list of new segments,
each satisfying the strict size gate `min_num_pixels < num_pixels <
max_num_pixels`; and one loop step emits nothing when the unite call did
not newly merge or the edge weight is not strictly above the frontier, or
when the size gate fails. -/
theorem claim_C3_size_gate (edges : List Nat) (weights : List ℚ) (mnp mxp : Int)
    (mf : ℚ) (depth height width : Nat) (segments : List Segment)
    (visited : List Nat) :
    (∃ new : List Segment,
      hierarchical_watershed segments visited edges weights mnp mxp mf
        depth height width = (segments ++ new, new.length) ∧
      ∀ s ∈ new, mnp < (s.num_pixels : Int) ∧ (s.num_pixels : Int) < mxp) ∧
    (∀ idx rest (uf : UnionFind) (segs : List Segment) (cnt : Nat),
      ¬ ((uf.unite (edges.getD (idx * 2) 0) (edges.getD (idx * 2 + 1) 0)).1 = true ∧
          weights.getD idx 0 > mf) →
      hwLoop edges weights mnp mxp mf depth height width (idx :: rest) uf segs cnt =
        hwLoop edges weights mnp mxp mf depth height width rest
          (uf.unite (edges.getD (idx * 2) 0) (edges.getD (idx * 2 + 1) 0)).2 segs cnt) ∧
    (∀ idx rest (uf : UnionFind) (segs : List Segment) (cnt : Nat),
      ((uf.unite (edges.getD (idx * 2) 0) (edges.getD (idx * 2 + 1) 0)).1 = true ∧
        weights.getD idx 0 > mf) →
      ¬ (mnp < ((((uf.unite (edges.getD (idx * 2) 0)
            (edges.getD (idx * 2 + 1) 0)).2.get_size (edges.getD (idx * 2) 0)).1 : Int)) ∧
         ((((uf.unite (edges.getD (idx * 2) 0)
            (edges.getD (idx * 2 + 1) 0)).2.get_size (edges.getD (idx * 2) 0)).1 : Int)) < mxp) →
      hwLoop edges weights mnp mxp mf depth height width (idx :: rest) uf segs cnt =
        hwLoop edges weights mnp mxp mf depth height width rest
          ((uf.unite (edges.getD (idx * 2) 0)
            (edges.getD (idx * 2 + 1) 0)).2.get_size (edges.getD (idx * 2) 0)).2
          segs cnt) := by
  refine ⟨?_, ?_, ?_⟩
  · obtain ⟨new, hres, hbnd, _⟩ := hierarchical_watershed_spec segments visited edges
      weights mnp mxp mf depth height width
    exact ⟨new, hres, hbnd⟩
  · intro idx rest uf segs cnt hno
    show (if _ then _ else _) = _
    rw [if_neg hno]
  · intro idx rest uf segs cnt hyes hno2
    show (if _ then _ else _) = _
    rw [if_pos hyes, if_neg hno2]

/-- C4: one flood-fill call visits each component voxel exactly once (the
visited list is duplicate-free) and records exactly one discovery edge
with one weight per non-seed voxel: `n` visited voxels yield `n − 1`
weights and `2·(n − 1)` flat edge entries. -/
theorem claim_C4_tree_edges (fg : Nat → Bool) (ctr : Nat → ℚ)
    (depth height width seed : Nat) (seen0 : Finset Nat) :
    (ffRun fg ctr depth height width seen0 seed).visited.Nodup ∧
    (ffRun fg ctr depth height width seen0 seed).weights.length + 1 =
      (ffRun fg ctr depth height width seen0 seed).visited.length ∧
    (ffRun fg ctr depth height width seen0 seed).edges.length =
      2 * ((ffRun fg ctr depth height width seen0 seed).visited.length - 1) := by
  obtain ⟨_, hnd, _, hw, he, _, _, _, _⟩ := ffRun_call fg ctr depth height width seed seen0
  exact ⟨hnd, hw, by omega⟩

/-- C5 (amended): the merger processes edge indices in an order meeting
the `std::sort` contract — a permutation of all edge indices with
non-decreasing weights — and the pipeline's order is exactly
`argsort weights`; `std::sort` does not guarantee stability, so the
relative order of equal-weight edges is implementation-defined. -/
theorem claim_C5_sorted_order (weights : List ℚ) :
    SortedIndexPost weights (argsort weights) ∧
    ∀ (segments : List Segment) (visited edges : List Nat) (mnp mxp : Int) (mf : ℚ)
      (depth height width : Nat),
      hierarchical_watershed segments visited edges weights mnp mxp mf depth height width =
        hwLoop edges weights mnp mxp mf depth height width (argsort weights)
          (UnionFind.ofList visited) segments 0 :=
  ⟨argsort_post weights, fun _ _ _ _ _ _ _ _ _ => rfl⟩

/-- C5 counterexample: the guaranteed `std::sort` postcondition does not
imply the stable tie order the spec asserts — `[1, 0]` is a legal sorted
index order for two equal weights, yet it breaks ties against discovery
order. -/
theorem claim_C5_counterexample : SortedIndexPost [(1 : ℚ), 1] [1, 0] ∧
    ¬ StableSortedPost [(1 : ℚ), 1] [1, 0] := by
  unfold SortedIndexPost StableSortedPost
  decide

/-- C6: `unite(x,y)` on registered elements reports `true` exactly when
the two representatives differ, and on a merge the lower-rank root is
attached under the higher-rank root with ranks unchanged, while on a rank
tie `y`'s root goes under `x`'s root and `x`'s root's rank increments. -/
theorem claim_C6_unite_semantics (uf : UnionFind) (h : uf.Inv) (x y : Nat)
    (hx : uf.contains x = true) (hy : uf.contains y = true) :
    ((uf.unite x y).1 = true ↔ uf.reprOf x ≠ uf.reprOf y) ∧
    (∀ rx ry, uf.reprOf x = some rx → uf.reprOf y = some ry → rx ≠ ry →
      ((uf.rank.getD rx 0 < uf.rank.getD ry 0 →
         parentD (uf.unite x y).2.parent rx = ry ∧ (uf.unite x y).2.rank = uf.rank) ∧
       (uf.rank.getD ry 0 < uf.rank.getD rx 0 →
         parentD (uf.unite x y).2.parent ry = rx ∧ (uf.unite x y).2.rank = uf.rank) ∧
       (uf.rank.getD rx 0 = uf.rank.getD ry 0 →
         parentD (uf.unite x y).2.parent ry = rx ∧
         (uf.unite x y).2.rank.getD rx 0 = uf.rank.getD rx 0 + 1))) :=
  unite_rank_behavior uf h x y hx hy

theorem claim_C6_witness :
    (UnionFind.ofList [10, 20]).Inv ∧
    (UnionFind.ofList [10, 20]).contains 10 = true ∧
    (UnionFind.ofList [10, 20]).contains 20 = true ∧
    (((UnionFind.ofList [10, 20]).unite 10 20).1 = true ↔
      (UnionFind.ofList [10, 20]).reprOf 10 ≠ (UnionFind.ofList [10, 20]).reprOf 20) :=
  ⟨Inv_ofList [10, 20], by decide, by decide,
   (claim_C6_unite_semantics (UnionFind.ofList [10, 20]) (Inv_ofList [10, 20]) 10 20
     (by decide) (by decide)).1⟩

/-- C7: with inverted size bounds (`max ≤ min`) no merge passes the
strict gate, so the watershed emits zero segments on any input, and every
component call returns exactly the whole-component fallback; the pipeline
still produces a well-defined result. -/
theorem claim_C7_degenerate_bounds (fg : Nat → Bool) (ctr : Nat → ℚ)
    (depth height width : Nat) (mnp mxp : Int) (mf : ℚ) (seen : Finset Nat)
    (segments : List Segment) (cur_idx : Nat) (hge : mxp ≤ mnp) :
    (∀ (segs2 : List Segment) (visited edges : List Nat) (weights : List ℚ),
      hierarchical_watershed segs2 visited edges weights mnp mxp mf depth height width =
        (segs2, 0)) ∧
    compute_connected_components fg ctr depth height width mnp mxp mf seen segments
      cur_idx =
      (segments ++ [fallbackSeg (ffRun fg ctr depth height width seen cur_idx)
        depth height width],
       (ffRun fg ctr depth height width seen cur_idx).seen,
       (ffRun fg ctr depth height width seen cur_idx).visited) := by
  refine ⟨?_, ccc_degenerate fg ctr depth height width mnp mxp mf seen segments
    cur_idx hge⟩
  intro segs2 visited edges weights
  exact hierarchical_watershed_degenerate segs2 visited edges weights mnp mxp mf
    depth height width hge

theorem claim_C7_witness :
    ((3 : Int) ≤ 3) ∧
    (∀ (segs2 : List Segment) (visited edges : List Nat) (weights : List ℚ),
      hierarchical_watershed segs2 visited edges weights 3 3 0 1 1 1 = (segs2, 0)) ∧
    compute_connected_components (fun _ => false) (fun _ => (0 : ℚ)) 1 1 1 3 3 0 ∅ [] 0 =
      ([] ++ [fallbackSeg (ffRun (fun _ => false) (fun _ => (0 : ℚ)) 1 1 1 ∅ 0) 1 1 1],
       (ffRun (fun _ => false) (fun _ => (0 : ℚ)) 1 1 1 ∅ 0).seen,
       (ffRun (fun _ => false) (fun _ => (0 : ℚ)) 1 1 1 ∅ 0).visited) :=
  ⟨by decide,
   (claim_C7_degenerate_bounds (fun _ => false) (fun _ => (0 : ℚ)) 1 1 1 3 3 0 ∅ [] 0
     (by decide)).1,
   (claim_C7_degenerate_bounds (fun _ => false) (fun _ => (0 : ℚ)) 1 1 1 3 3 0 ∅ [] 0
     (by decide)).2⟩

/-- C8: for a materialized segment over a duplicate-free voxel list lying
inside the given bounding box, the mask's true-entry count equals
`num_pixels` (= the list length), the flat mask length is the product of
the per-axis extents `max − min + 1` (the recorded `mask_shape`), the
origin fields are the bbox minima, and the `bbox` field records the box. -/
theorem claim_C8_mask_bbox (visited : List Nat)
    (min_z min_y min_x max_z max_y max_x depth height width : Nat)
    (hnd : visited.Nodup)
    (hin : ∀ idx ∈ visited,
      min_z ≤ decodeZ height width idx ∧ decodeZ height width idx ≤ max_z ∧
      min_y ≤ decodeY height width idx ∧ decodeY height width idx ≤ max_y ∧
      min_x ≤ decodeX width idx ∧ decodeX width idx ≤ max_x) :
    (Segment.from_visited_and_bbox visited min_z min_y min_x max_z max_y max_x
      depth height width).mask.count true =
      (Segment.from_visited_and_bbox visited min_z min_y min_x max_z max_y max_x
        depth height width).num_pixels ∧
    (Segment.from_visited_and_bbox visited min_z min_y min_x max_z max_y max_x
      depth height width).num_pixels = visited.length ∧
    (Segment.from_visited_and_bbox visited min_z min_y min_x max_z max_y max_x
      depth height width).mask.length =
      (max_z - min_z + 1) * (max_y - min_y + 1) * (max_x - min_x + 1) ∧
    (Segment.from_visited_and_bbox visited min_z min_y min_x max_z max_y max_x
      depth height width).mask_shape =
      (max_z - min_z + 1, max_y - min_y + 1, max_x - min_x + 1) ∧
    (Segment.from_visited_and_bbox visited min_z min_y min_x max_z max_y max_x
      depth height width).z = min_z ∧
    (Segment.from_visited_and_bbox visited min_z min_y min_x max_z max_y max_x
      depth height width).y = min_y ∧
    (Segment.from_visited_and_bbox visited min_z min_y min_x max_z max_y max_x
      depth height width).x = min_x ∧
    (Segment.from_visited_and_bbox visited min_z min_y min_x max_z max_y max_x
      depth height width).bbox = [min_z, min_y, min_x, max_z, max_y, max_x] := by
  obtain ⟨h1, h2⟩ := from_visited_and_bbox_spec visited min_z min_y min_x max_z max_y
    max_x depth height width hnd hin
  exact ⟨h1, rfl, h2, rfl, rfl, rfl, rfl, rfl⟩

theorem claim_C8_witness :
    ([0] : List Nat).Nodup ∧
    (∀ idx ∈ ([0] : List Nat),
      0 ≤ decodeZ 1 1 idx ∧ decodeZ 1 1 idx ≤ 0 ∧
      0 ≤ decodeY 1 1 idx ∧ decodeY 1 1 idx ≤ 0 ∧
      0 ≤ decodeX 1 idx ∧ decodeX 1 idx ≤ 0) ∧
    (Segment.from_visited_and_bbox [0] 0 0 0 0 0 0 1 1 1).mask.count true =
      (Segment.from_visited_and_bbox [0] 0 0 0 0 0 0 1 1 1).num_pixels :=
  ⟨by decide, by decide,
   (claim_C8_mask_bbox [0] 0 0 0 0 0 0 1 1 1 (by decide) (by decide)).1⟩

/-- C9: for the voxel list a flood-fill call produces, materializing via
the recomputed bounding box (`Segment::from_visited`) and via the
incrementally tracked extrema (`Segment::from_visited_and_bbox` on the
call's tracked box) give the same segment. -/
theorem claim_C9_bbox_refines (fg : Nat → Bool) (ctr : Nat → ℚ)
    (depth height width seed : Nat) (seen0 : Finset Nat) :
    Segment.from_visited (ffRun fg ctr depth height width seen0 seed).visited
        depth height width =
      Segment.from_visited_and_bbox (ffRun fg ctr depth height width seen0 seed).visited
        (ffRun fg ctr depth height width seen0 seed).bbox.1
        (ffRun fg ctr depth height width seen0 seed).bbox.2.1
        (ffRun fg ctr depth height width seen0 seed).bbox.2.2.1
        (ffRun fg ctr depth height width seen0 seed).bbox.2.2.2.1
        (ffRun fg ctr depth height width seen0 seed).bbox.2.2.2.2.1
        (ffRun fg ctr depth height width seen0 seed).bbox.2.2.2.2.2
        depth height width :=
  from_visited_eq_tracked (ffRun fg ctr depth height width seen0 seed) depth height width
    (ffRun_call fg ctr depth height width seed seen0).2.2.2.2.2.2.2.2

/-- C10: after any sequence of add/find/unite/get_size/get_component
operations, `count()` equals the number of self-parent slots, `size` at
every root equals that root's component cardinality, `get_size` agrees
with the length of `get_component`, and `find`/`get_component` leave
every registered element's representative unchanged. -/
theorem claim_C10_bookkeeping (uf0 : UnionFind) (h0 : uf0.Inv) (ops : List UFOp) :
    (uf0.applyOps ops).count =
      ((Finset.range (uf0.applyOps ops).parent.length).filter
        (fun i => parentD (uf0.applyOps ops).parent i = i)).card ∧
    (∀ r, r < (uf0.applyOps ops).parent.length →
      parentD (uf0.applyOps ops).parent r = r →
      (uf0.applyOps ops).size.getD r 0 = (rootsTo (uf0.applyOps ops).parent r).card) ∧
    (∀ x, ((uf0.applyOps ops).get_size x).1 =
      ((uf0.applyOps ops).get_component x).1.length) ∧
    (∀ x z, (uf0.applyOps ops).contains z = true →
      (((uf0.applyOps ops).find x).2).reprOf z = (uf0.applyOps ops).reprOf z) ∧
    (∀ x z, (((uf0.applyOps ops).get_component x).2).reprOf z =
      (uf0.applyOps ops).reprOf z) := by
  have h := Inv_applyOps uf0 h0 ops
  refine ⟨h.2.2.2.2.2.2.2.1, h.2.2.2.2.2.2.2.2, ?_, ?_, ?_⟩
  · intro x
    exact get_size_eq_component_length _ h x
  · intro x z hz
    exact find_reprOf _ h x z hz
  · intro x z
    exact (get_component_spec _ h x).2.1 z

theorem claim_C10_witness :
    (UnionFind.ofList [4, 7]).Inv ∧
    (((UnionFind.ofList [4, 7]).applyOps [UFOp.uniteOp 4 7]).get_size 4).1 =
      (((UnionFind.ofList [4, 7]).applyOps [UFOp.uniteOp 4 7]).get_component 4).1.length :=
  ⟨Inv_ofList [4, 7],
   (claim_C10_bookkeeping (UnionFind.ofList [4, 7]) (Inv_ofList [4, 7])
     [UFOp.uniteOp 4 7]).2.2.1 4⟩
